import Mathlib

/-!
bincache: the bounded LRU store, the consistent-hash ring and the cache group

A shallow embedding of `geecache/lru/lru.go`,
`geecache/consistenthash/consistenthash.go` and `geecache/geecache.go`.

Modelling conventions.

* Go's `container/list` is a `List Element`, front first. An `*list.Element`
  is a natural number (`Element.id`), the identity of the node; the map
  `cache` stores these identities, exactly as the Go map stores pointers.
* Go's `map[K]V` is an association list with at most one pair per key.
* `int64` arithmetic is carried out in `Int`: wrap-around at `2^63` is not
  modelled, so the statements speak of runs in which the byte counter stays
  within the 64-bit range.
* `len(key)` of a Go string is its number of bytes, `String.utf8ByteSize`.
* The loop at the end of `Cache.Add` need not terminate; it is given fuel and
  returns `none` when the fuel runs out.
* A group runs sequentially. What `geecache.go` uses from files that are not
  among the sources (the wrapper `cache`, `ByteView`, `singleflight`) is
  modelled from the specification and marked so; the interfaces `Getter`,
  `PeerPicker` and `PeerGetter` are function-valued parameters. A panic is
  `Except.error` with its message.
-/

/-! ## Go maps -/

namespace GoMap

/-- The read `m[k]` with the comma-ok form: `some v` when present. -/
def get {K V : Type} [DecidableEq K] (m : List (K × V)) (k : K) : Option V :=
  match m with
  | [] => none
  | (k', v) :: rest => if k' = k then some v else get rest k

/-- The builtin `delete(m, k)`. -/
def delete {K V : Type} [DecidableEq K] (m : List (K × V)) (k : K) : List (K × V) :=
  m.filter (fun p => decide (p.1 ≠ k))

/-- The assignment `m[k] = v`. -/
def set {K V : Type} [DecidableEq K] (m : List (K × V)) (k : K) (v : V) : List (K × V) :=
  (k, v) :: delete m k

end GoMap

namespace lru

/-! ## Data model -/

/-- The interface `Value`: a value of any type that has a method `Len() int`.
`b` is the payload, which tells values apart, and `Len` is what the method
returns: any `int`, since the store does not constrain the implementation.
For a byte slice `Len` is the length, see `bytes`. -/
structure Value where
  b : List UInt8
  Len : Int
deriving DecidableEq, Repr

/-- The struct `entry`: what a list element carries. -/
structure entry where
  key : String
  value : Value
deriving DecidableEq, Repr

/-- A node of `container/list`: `id` is the pointer identity of the node and
`Value` the `*entry` it carries. -/
structure Element where
  id : Nat
  Value : entry
deriving DecidableEq, Repr

/-- The struct `Cache`. `OnEvicted` tells whether a callback is configured and
`evicted` is the trace of the callback's invocations, most recent first. -/
structure Cache where
  maxBytes : Int
  nbytes : Int
  ll : List Element
  cache : List (String × Nat)
  OnEvicted : Bool
  evicted : List entry
deriving DecidableEq, Repr

/-- The size the store charges for an entry: `int64(len(key)) + int64(value.Len())`. -/
def entry.size (kv : entry) : Int := (kv.key.utf8ByteSize : Int) + kv.value.Len

/-! ## container/list -/

/-- A node identity that no node of the list has: a fresh allocation. -/
def freshId (l : List Element) : Nat := (l.map Element.id).foldr max 0 + 1

/-- The node of the list with identity `ele`. -/
def findElement (l : List Element) (ele : Nat) : Option Element :=
  l.find? (fun e => decide (e.id = ele))

/-- `l.Remove(ele)`: unlink the node `ele`. -/
def Remove (l : List Element) (ele : Nat) : List Element :=
  l.filter (fun e => decide (e.id ≠ ele))

/-- `l.MoveToFront(ele)`: no effect when `ele` is not a node of `l`. -/
def MoveToFront (l : List Element) (ele : Nat) : List Element :=
  match findElement l ele with
  | some e => e :: Remove l ele
  | none => l

/-- `l.Back()`: the last node, or nil. -/
def Back (l : List Element) : Option Element := l.getLast?

/-- The assignment `kv.value = value` through the pointer held by node `ele`. -/
def setValue (l : List Element) (ele : Nat) (value : Value) : List Element :=
  l.map (fun e => if e.id = ele then { e with Value := { e.Value with value := value } } else e)

/-! ## The store -/

/-- The constructor `New(maxBytes, onEvicted)`. -/
def New (maxBytes : Int) (onEvicted : Bool) : Cache :=
  { maxBytes := maxBytes, nbytes := 0, ll := [], cache := [], OnEvicted := onEvicted, evicted := [] }

/-- The method `Cache.Get`: `some v` stands for `(v, true)` and `none` for the
zero result `(nil, false)`. The entry is read through the node the index
holds; in every reachable state that node is in the list
(`WF_of_Reach`), so a present key always yields `some`. -/
def Get (c : Cache) (key : String) : Option Value × Cache :=
  match GoMap.get c.cache key with
  | some ele =>
    let ll := MoveToFront c.ll ele
    ((findElement ll ele).map (fun e => e.Value.value), { c with ll := ll })
  | none => (none, c)

/-- The method `Cache.RemoveOldest`. -/
def RemoveOldest (c : Cache) : Cache :=
  match Back c.ll with
  | some ele =>
    let kv := ele.Value
    { c with
      ll := Remove c.ll ele.id
      cache := GoMap.delete c.cache kv.key
      nbytes := c.nbytes - ((kv.key.utf8ByteSize : Int) + kv.value.Len)
      evicted := if c.OnEvicted then kv :: c.evicted else c.evicted }
  | none => c

/-- The first statement of `Cache.Add` (the `if`/`else`), before the eviction
loop. In the update branch the value is assigned first and the counter is
adjusted afterwards by `value.Len() - kv.value.Len()`, where `kv.value` is read
back from the node, as the source does. The `none` case of that read stands
for a node that is not in the list, which no reachable state has. -/
def AddNoEvict (c : Cache) (key : String) (value : Value) : Cache :=
  match GoMap.get c.cache key with
  | some ele =>
    let ll1 := MoveToFront c.ll ele
    let ll2 := setValue ll1 ele value
    let kvLen : Int := match findElement ll2 ele with
      | some e => e.Value.value.Len
      | none => 0
    { c with ll := ll2, nbytes := c.nbytes + (value.Len - kvLen) }
  | none =>
    let ele := freshId c.ll
    { c with
      ll := { id := ele, Value := { key := key, value := value } } :: c.ll
      cache := GoMap.set c.cache key ele
      nbytes := c.nbytes + ((key.utf8ByteSize : Int) + value.Len) }

/-- The eviction loop of `Cache.Add`:
`for c.maxBytes != 0 && c.maxBytes < c.nbytes { c.RemoveOldest() }`.
Each unit of fuel pays for one evaluation of the loop condition. -/
def evictLoop : Nat → Cache → Option Cache
  | 0, _ => none
  | fuel + 1, c =>
    if c.maxBytes ≠ 0 ∧ c.maxBytes < c.nbytes then evictLoop fuel (RemoveOldest c)
    else some c

/-- The method `Cache.Add`; `none` when the eviction loop has not finished
within the fuel. -/
def Add (fuel : Nat) (c : Cache) (key : String) (value : Value) : Option Cache :=
  evictLoop fuel (AddNoEvict c key value)

/-- The method `Cache.Len`. -/
def Len (c : Cache) : Nat := c.ll.length

/-- The recomputed footprint of the live entries: the sum of
`len(key) + value.Len()` over the nodes of the list. -/
def liveBytes (c : Cache) : Int := (c.ll.map (fun e => e.Value.size)).sum

/-- A byte slice of `n` zero bytes as a `Value`: its `Len()` is `n`. -/
def bytes (n : Nat) : Value := ⟨List.replicate n 0, (n : Int)⟩

/-! ## Histories and reachable states -/

/-- What a call did, as seen by the caller: `hit`/`miss` record a `Get` by
whether it found the key. -/
inductive Event where
  | add (key : String) (value : Value)
  | hit (key : String)
  | miss (key : String)
  | removeOldest
deriving DecidableEq, Repr

/-- Whether the event touches `key`: an `Add` of the key or a `Get` that hit it. -/
def Event.touches (ev : Event) (key : String) : Bool :=
  match ev with
  | .add k _ => decide (k = key)
  | .hit k => decide (k = key)
  | .miss _ => false
  | .removeOldest => false

/-- The event a `Get(key)` leaves in the history of store `c`. -/
def getEvent (c : Cache) (key : String) : Event :=
  if (Get c key).1.isSome then .hit key else .miss key

/-- The logical time of the last touch of `key` in a history (most recent
event first): the events are numbered from 1, and 0 means never touched. -/
def lastTouch : List Event → String → Nat
  | [], _ => 0
  | ev :: h, key => if ev.touches key then h.length + 1 else lastTouch h key

/-- The value passed to the most recent `Add(key, .)` of a history. -/
def lastAdd : List Event → String → Option Value
  | [], _ => none
  | .add k v :: h, key => if k = key then some v else lastAdd h key
  | _ :: h, key => lastAdd h key

/-- The states reachable from `New(maxBytes, onEvicted)` by completed calls of
`Add`, `Get` and `RemoveOldest`, with the history of the calls. -/
inductive Reach (maxBytes : Int) (onEvicted : Bool) : List Event → Cache → Prop where
  | new : Reach maxBytes onEvicted [] (New maxBytes onEvicted)
  | add {h : List Event} {c c' : Cache} (fuel : Nat) (key : String) (value : Value) :
      Reach maxBytes onEvicted h c → Add fuel c key value = some c' →
      Reach maxBytes onEvicted (.add key value :: h) c'
  | get {h : List Event} {c : Cache} (key : String) :
      Reach maxBytes onEvicted h c →
      Reach maxBytes onEvicted (getEvent c key :: h) (Get c key).2
  | removeOldest {h : List Event} {c : Cache} :
      Reach maxBytes onEvicted h c →
      Reach maxBytes onEvicted (.removeOldest :: h) (RemoveOldest c)

/-- The states reachable by completed `Add` calls only. -/
inductive ReachAdd (maxBytes : Int) (onEvicted : Bool) : Cache → Prop where
  | new : ReachAdd maxBytes onEvicted (New maxBytes onEvicted)
  | add {c c' : Cache} (fuel : Nat) (key : String) (value : Value) :
      ReachAdd maxBytes onEvicted c → Add fuel c key value = some c' →
      ReachAdd maxBytes onEvicted c'

/-- The index pair a list node stands for: its key and its identity. -/
def indexPair (e : Element) : String × Nat := (e.Value.key, e.id)

/-- Structural well-formedness: node identities are distinct, keys are
distinct, and the index holds exactly the pairs of the list nodes. -/
def WF (c : Cache) : Prop :=
  (c.ll.map Element.id).Nodup ∧ (c.ll.map (fun e => e.Value.key)).Nodup ∧
    c.cache.Perm (c.ll.map indexPair)

end lru

namespace lru

/-- The number of `RemoveOldest` calls the eviction loop of `Cache.Add` makes:
the loop of `evictLoop`, counting its turns. -/
def evictCalls : Nat → Cache → Option Nat
  | 0, _ => none
  | fuel + 1, c =>
    if c.maxBytes ≠ 0 ∧ c.maxBytes < c.nbytes then
      (evictCalls fuel (RemoveOldest c)).map (fun n => n + 1)
    else some 0

end lru

/-! ## The consistent-hash ring -/

namespace consistenthash

/-- The type `Hash func(data []byte) uint32`; the argument is the byte string
the caller converts with `[]byte(...)`. -/
abbrev Hash := String → UInt32

/-- The struct `Consistence`. The type `int` is taken to be 64 bits wide, so
that `int(h)` of a `uint32` is its value. -/
structure Consistence where
  hash : Hash
  replicas : Int
  ring : List Int
  hashMap : List (Int × String)

/-- The constructor `New(replicas, fn)`; `fn = none` is the nil function, which
is replaced by `crc32.ChecksumIEEE`, a parameter here. -/
def New (ChecksumIEEE : Hash) (replicas : Int) (fn : Option Hash) : Consistence :=
  { replicas := replicas
    hash := match fn with
      | some f => f
      | none => ChecksumIEEE
    ring := []
    hashMap := [] }

/-- The call `strconv.Itoa(i)` for a loop index `i ≥ 0`: its decimal digits. -/
def Itoa (i : Nat) : String := toString i

/-- The value `int(c.hash([]byte(node + strconv.Itoa(i))))`: the ring position
of replica `i` of `node`. -/
def virtualHash (c : Consistence) (node : String) (i : Nat) : Int :=
  ((c.hash (node ++ Itoa i)).toNat : Int)

/-- The inner loop of `Add`, `for i := 0; i < c.replicas; i++`, for one node. -/
def addNode (c : Consistence) (node : String) : Consistence :=
  (List.range c.replicas.toNat).foldl
    (fun c i =>
      let hash := virtualHash c node i
      { c with ring := c.ring ++ [hash], hashMap := GoMap.set c.hashMap hash node })
    c

/-- The call `sort.Ints`: the ascending rearrangement of the slice. -/
def sortInts (l : List Int) : List Int := l.insertionSort (· ≤ ·)

/-- The method `Consistence.Add(nodes...)`. -/
def Add (c : Consistence) (nodes : List String) : Consistence :=
  let c' := nodes.foldl addNode c
  { c' with ring := sortInts c'.ring }

/-- The loop of `sort.Search`: `for i < j { h := (i+j)/2; if !f(h) { i = h+1 }
else { j = h } }; return i`. The interval `j - i` shrinks at every turn, so
`j - i` units of fuel complete it. -/
def searchLoop (f : Nat → Bool) : Nat → Nat → Nat → Nat
  | 0, i, _ => i
  | fuel + 1, i, j =>
    if i < j then
      let h := (i + j) / 2
      if !f h then searchLoop f fuel (h + 1) j else searchLoop f fuel i h
    else i

/-- The call `sort.Search(n, f)`. -/
def Search (n : Nat) (f : Nat → Bool) : Nat := searchLoop f n 0 n

/-- The method `Consistence.Get`, with the ring after the call. -/
def Get (c : Consistence) (key : String) : String × Consistence :=
  if c.ring.length = 0 then ("", c)
  else
    let hash : Int := ((c.hash key).toNat : Int)
    let idx := Search c.ring.length (fun i => decide (c.ring.getD i 0 ≥ hash))
    ((GoMap.get c.hashMap (c.ring.getD (idx % c.ring.length) 0)).getD "", c)

/-- The rings reachable from `New` by calls of `Add` and `Get`. -/
inductive Reach (ChecksumIEEE : Hash) (replicas : Int) (fn : Option Hash) :
    Consistence → Prop where
  | new : Reach ChecksumIEEE replicas fn (New ChecksumIEEE replicas fn)
  | add {c : Consistence} (nodes : List String) :
      Reach ChecksumIEEE replicas fn c → Reach ChecksumIEEE replicas fn (Add c nodes)
  | get {c : Consistence} (key : String) :
      Reach ChecksumIEEE replicas fn c → Reach ChecksumIEEE replicas fn (Get c key).2

/-- The virtual positions of `node`: the ring entries `Add(node)` inserts. -/
def positions (c : Consistence) (node : String) : List Int :=
  (List.range c.replicas.toNat).map (virtualHash c node)

/-- On the circular ring, `x` falls between the entry `p` and the ring
predecessor of `p`: either `x ≤ p` and every entry below `p` is below `x`, or
`p` is the smallest entry and `x` lies above every entry (the wrap-around arc). -/
def fallsBetween (ring : List Int) (p x : Int) : Prop :=
  (x ≤ p ∧ ∀ q ∈ ring, q < p → q < x) ∨ ((∀ q ∈ ring, p ≤ q) ∧ ∀ q ∈ ring, q < x)

instance (ring : List Int) (p x : Int) : Decidable (fallsBetween ring p x) := by
  unfold fallsBetween
  infer_instance

/-- The ring entry that owns the hash `x`: `v` is the smallest entry that is
`≥ x`, or, when every entry is below `x`, the smallest entry of the ring. -/
def isSuccessor (ring : List Int) (x v : Int) : Prop :=
  v ∈ ring ∧ ((x ≤ v ∧ ∀ q ∈ ring, x ≤ q → v ≤ q) ∨ ((∀ q ∈ ring, q < x) ∧ ∀ q ∈ ring, v ≤ q))

/-- A hash function for worked examples: replicas of `"a"` at 10 and 30, of
`"b"` at 20 and 40, the key `"k"` at 25, anything else at 50. -/
def exampleHash : Hash := fun s =>
  if s = "a0" then 10 else if s = "a1" then 30 else if s = "b0" then 20
  else if s = "b1" then 40 else if s = "k" then 25 else 50

end consistenthash

namespace consistenthash

/-- The rings reachable from `New`, with the nodes registered so far, in the
order of the `Add` calls and with repetitions. -/
inductive ReachNodes (ChecksumIEEE : Hash) (replicas : Int) (fn : Option Hash) :
    List String → Consistence → Prop where
  | new : ReachNodes ChecksumIEEE replicas fn [] (New ChecksumIEEE replicas fn)
  | add {ns : List String} {c : Consistence} (nodes : List String) :
      ReachNodes ChecksumIEEE replicas fn ns c →
      ReachNodes ChecksumIEEE replicas fn (ns ++ nodes) (Add c nodes)
  | get {ns : List String} {c : Consistence} (key : String) :
      ReachNodes ChecksumIEEE replicas fn ns c →
      ReachNodes ChecksumIEEE replicas fn ns (Get c key).2

end consistenthash

/-! ## The cache group -/

namespace geecache

/-- Modelled from the spec: the value-view `ByteView` (byteview.go is not among
the sources), an immutable byte sequence that exposes its length; it is the
value the group hands to the store. -/
structure ByteView where
  b : List UInt8
deriving DecidableEq, Repr

/-- Modelled from the spec: the method `ByteView.Len`, the length of the byte
sequence. -/
def ByteView.Len (v : ByteView) : Int := (v.b.length : Int)

/-- A `ByteView` passed where the store expects the interface `lru.Value`: the
same bytes, with the `Len()` of `ByteView`. -/
def ByteView.toValue (v : ByteView) : lru.Value := ⟨v.b, v.Len⟩

/-- Modelled from the spec: the type assertion `v.(ByteView)` the wrapper
applies to a value read from the store, which holds only values the group
put there. -/
def ByteView.ofValue (v : lru.Value) : ByteView := ⟨v.b⟩

/-- Modelled from the spec: `cloneBytes` (byteview.go), the copy that decouples
the stored bytes from the caller's buffer. -/
def cloneBytes (b : List UInt8) : List UInt8 := b

/-- Go's `error`, by its message; `Option error` with `none` for `nil`. -/
abbrev error := String

/-- The interface `Getter` (and `GetterFunc`): the loader callback. The pair
`(bytes, err)` is `.ok bytes` when `err == nil` and `.error err` otherwise. -/
abbrev Getter := String → Except error (List UInt8)

/-- The message `pb.Request` (the generated package is not among the sources). -/
structure Request where
  Group : String
  Key : String

/-- The message `pb.Response`. -/
structure Response where
  Value : List UInt8

/-- The interface `PeerGetter`: `Get(in, out)` fills `out` and returns an error
or nil. -/
structure PeerGetter where
  Get : Request → Response → Response × Option error

/-- The interface `PeerPicker`: `PickPeer(key)` returns `(peer, true)`, here
`some peer`, or `(nil, false)`, here `none`. -/
structure PeerPicker where
  PickPeer : String → Option PeerGetter

/-- Modelled from the spec: the synchronized wrapper `cache` (cache.go is not
among the sources). It holds the declared capacity and the store, which is
constructed lazily on first use; `lru = none` is the store not yet
constructed. The mutex plays no part in a sequential run. -/
structure cache where
  lru : Option lru.Cache
  cacheBytes : Int

/-- Modelled from the spec: the wrapper's `add`, which constructs the store
with the declared capacity (and no eviction callback) on first use and
forwards to `lru.Cache.Add`. -/
def cache.add (fuel : Nat) (c : cache) (key : String) (value : ByteView) : Option cache :=
  let l := match c.lru with
    | some l => l
    | none => lru.New c.cacheBytes false
  (lru.Add fuel l key value.toValue).map (fun l' => { c with lru := some l' })

/-- Modelled from the spec: the wrapper's `get`, which forwards to
`lru.Cache.Get`; on a store not yet constructed it is a miss. -/
def cache.get (c : cache) (key : String) : Option ByteView × cache :=
  match c.lru with
  | some l =>
    ((lru.Get l key).1.map ByteView.ofValue, { c with lru := some (lru.Get l key).2 })
  | none => (none, c)

/-- The calls a group makes to its collaborators, for counting them. -/
inductive Call where
  | loader (key : String)
  | pickPeer (key : String)
  | peerGet (group : String) (key : String)
  | coalescer (key : String)
deriving DecidableEq, Repr

/-- The struct `Group`. `loader` is the coalescer's map of calls in flight, by
key; `trace` records the calls made to the loader callback, the peer picker,
a peer and the coalescer, most recent first. -/
structure Group where
  name : String
  getter : Getter
  mainCache : cache
  peers : Option PeerPicker
  loader : List String
  trace : List Call

/-- What `Group.Get` returns: the value and the error, `none` for `nil`. -/
abbrev Result := ByteView × Option error

/-- The function `NewGroup`, on the registry `groups`; `getter = none` is the nil
getter, and `.error` a panic with its message. -/
def NewGroup (groups : List (String × Group)) (name : String) (cacheBytes : Int)
    (getter : Option Getter) : Except String (Group × List (String × Group)) :=
  match getter with
  | none => .error "nil Getter"
  | some getter =>
    let g : Group :=
      { name := name, getter := getter, mainCache := { lru := none, cacheBytes := cacheBytes },
        peers := none, loader := [], trace := [] }
    .ok (g, (name, g) :: groups.filter (fun p => decide (p.1 ≠ name)))

/-- The method `Group.RegisterPeers`; `peers = none` is the nil interface value
and `.error` a panic with its message. -/
def RegisterPeers (g : Group) (peers : Option PeerPicker) : Except String Group :=
  match g.peers with
  | some _ => .error "RegisterPeerPicker called more than once"
  | none => .ok { g with peers := peers }

/-- The method `Group.getFromPeer`. -/
def getFromPeer (g : Group) (peer : PeerGetter) (key : String) : Result × Group :=
  let req : Request := { Group := g.name, Key := key }
  let res : Response := { Value := [] }
  let out := peer.Get req res
  let g' := { g with trace := Call.peerGet g.name key :: g.trace }
  match out.2 with
  | some err => ((⟨[]⟩, some err), g')
  | none => ((⟨out.1.Value⟩, none), g')

/-- The method `Group.populateCache`; `none` when the store's eviction loop
has not finished within the fuel. -/
def populateCache (fuel : Nat) (g : Group) (key : String) (value : ByteView) : Option Group :=
  (g.mainCache.add fuel key value).map (fun mc => { g with mainCache := mc })

/-- The method `Group.getLocally`. -/
def getLocally (fuel : Nat) (g : Group) (key : String) : Option (Result × Group) :=
  let g1 := { g with trace := Call.loader key :: g.trace }
  match g.getter key with
  | .error err => some ((⟨[]⟩, some err), g1)
  | .ok bytes =>
    let value : ByteView := ⟨cloneBytes bytes⟩
    (populateCache fuel g1 key value).map (fun g2 => ((value, none), g2))

/-- The closure `load` hands to the coalescer. -/
def loadFn (fuel : Nat) (g : Group) (key : String) : Option (Result × Group) :=
  match g.peers with
  | some peers =>
    let g1 := { g with trace := Call.pickPeer key :: g.trace }
    match peers.PickPeer key with
    | some peer =>
      let out := getFromPeer g1 peer key
      match out.1.2 with
      | none => some (out.1, out.2)
      | some _ => getLocally fuel out.2 key
    | none => getLocally fuel g1 key
  | none => getLocally fuel g key

/-- Modelled from the spec: `singleflight.Group.Do` (the package is not among the
sources) in a sequential run. With no call for `key` in flight it registers
a handle, runs `fn` on the calling context, removes the handle and returns
the result of `fn`. With a call for `key` in flight the caller waits for it,
which in a sequential run is forever: `none`. -/
def Do (g : Group) (key : String) (fn : Group → Option (Result × Group)) :
    Option (Result × Group) :=
  if key ∈ g.loader then none
  else
    match fn { g with loader := key :: g.loader, trace := Call.coalescer key :: g.trace } with
    | some (r, g') => some (r, { g' with loader := g'.loader.erase key })
    | none => none

/-- The method `Group.load`: on an error the named results are the zero value
and the error. -/
def load (fuel : Nat) (g : Group) (key : String) : Option (Result × Group) :=
  match Do g key (fun g => loadFn fuel g key) with
  | some ((viewi, none), g') => some ((viewi, none), g')
  | some ((_, some err), g') => some ((⟨[]⟩, some err), g')
  | none => none

/-- The method `Group.Get`; `none` when the call does not return within the
fuel. -/
def Get (fuel : Nat) (g : Group) (key : String) : Option (Result × Group) :=
  if key = "" then some ((⟨[]⟩, some "key is required"), g)
  else
    match (g.mainCache.get key).1 with
    | some v => some ((v, none), { g with mainCache := (g.mainCache.get key).2 })
    | none => load fuel { g with mainCache := (g.mainCache.get key).2 } key

/-- The groups reachable from `NewGroup` by `RegisterPeers` and `Get` calls that
return. -/
inductive Reach : Group → Prop where
  | new {groups groups' : List (String × Group)} {name : String} {cacheBytes : Int}
      {getter : Getter} {g : Group} :
      NewGroup groups name cacheBytes (some getter) = .ok (g, groups') → Reach g
  | registerPeers {g g' : Group} (peers : Option PeerPicker) :
      Reach g → RegisterPeers g peers = .ok g' → Reach g'
  | get {g g' : Group} {r : Result} (fuel : Nat) (key : String) :
      Reach g → Get fuel g key = some (r, g') → Reach g'

/-- The number of invocations of the loader callback recorded in a trace. -/
def loaderCalls (t : List Call) : Nat :=
  (t.filter (fun c => match c with
    | .loader _ => true
    | _ => false)).length

/-- The local store holds no entry: not yet constructed, or with an empty list. -/
def storeEmpty (g : Group) : Prop :=
  match g.mainCache.lru with
  | some l => l.ll = []
  | none => True

/-- No remote value is obtained for `key`: no picker is registered, or it picks
no peer, or the fetch from the picked peer fails. -/
def noRemote (g : Group) (key : String) : Prop :=
  match g.peers with
  | some peers =>
    match peers.PickPeer key with
    | some peer => (peer.Get { Group := g.name, Key := key } { Value := [] }).2 ≠ none
    | none => True
  | none => True

/-- The state invariant of the wrapped store: once constructed, it is a
reachable store of the declared capacity whose counter equals the recomputed
footprint. -/
def storeInv (mc : cache) : Prop :=
  ∀ l, mc.lru = some l →
    (∃ h, lru.Reach mc.cacheBytes false h l) ∧ l.nbytes = lru.liveBytes l

/-- The state invariant of a group: no call in flight between calls, and the
invariant of its store. -/
def Inv (g : Group) : Prop :=
  g.loader = [] ∧ storeInv g.mainCache

/-- A group for worked examples: capacity `cacheBytes`, a loader that returns
`n` zero bytes for every key, no peers. -/
def exampleGroup (cacheBytes : Int) (n : Nat) : Group :=
  { name := "g", getter := fun _ => .ok (List.replicate n 0),
    mainCache := { lru := none, cacheBytes := cacheBytes },
    peers := none, loader := [], trace := [] }

/-- A group for worked examples whose loader fails on every key. -/
def failingGroup : Group :=
  { name := "g", getter := fun _ => .error "no such key",
    mainCache := { lru := none, cacheBytes := 0 },
    peers := none, loader := [], trace := [] }

/-- A peer for worked examples: it answers every request with the bytes 1, 2
when `up`, and fails otherwise. -/
def examplePeer (up : Bool) : PeerGetter :=
  { Get := fun _ res => if up then ({ Value := [1, 2] }, none) else (res, some "peer down") }

/-- A picker for worked examples: it picks `examplePeer up` for every key. -/
def examplePicker (up : Bool) : PeerPicker :=
  { PickPeer := fun _ => some (examplePeer up) }

/-- A group for worked examples: unbounded store, a loader that returns three
zero bytes, and the picker `examplePicker up` registered. -/
def peerGroup (up : Bool) : Group :=
  { name := "g", getter := fun _ => .ok (List.replicate 3 0),
    mainCache := { lru := none, cacheBytes := 0 },
    peers := some (examplePicker up), loader := [], trace := [] }

/-- A group for worked examples: capacity -1, a loader that returns three zero
bytes, and a picker whose peer fails. -/
def negativeGroup : Group :=
  { name := "g", getter := fun _ => .ok (List.replicate 3 0),
    mainCache := { lru := none, cacheBytes := -1 },
    peers := some (examplePicker false), loader := [], trace := [] }

end geecache

/-! ## Lemmas on Go maps -/

namespace GoMap

theorem get_eq_none_iff {K V : Type} [DecidableEq K] (m : List (K × V)) (k : K) :
    get m k = none ↔ k ∉ m.map Prod.fst := by
  induction m with
  | nil => simp [get]
  | cons p rest ih =>
    obtain ⟨k', v⟩ := p
    by_cases hk : k' = k
    · simp [get, hk]
    · simp [get, hk, ih, Ne.symm hk]

theorem mem_of_get_eq_some {K V : Type} [DecidableEq K] (m : List (K × V)) (k : K) (v : V)
    (h : get m k = some v) : (k, v) ∈ m := by
  induction m with
  | nil => simp [get] at h
  | cons p rest ih =>
    obtain ⟨k', v'⟩ := p
    by_cases hk : k' = k
    · simp [get, hk] at h
      simp [hk, h]
    · simp [get, hk] at h
      exact List.mem_cons_of_mem _ (ih h)

theorem get_eq_some_of_mem {K V : Type} [DecidableEq K] (m : List (K × V)) (k : K) (v : V)
    (hnd : (m.map Prod.fst).Nodup) (h : (k, v) ∈ m) : get m k = some v := by
  induction m with
  | nil => simp at h
  | cons p rest ih =>
    obtain ⟨k', v'⟩ := p
    simp only [List.map_cons, List.nodup_cons] at hnd
    rcases List.mem_cons.1 h with heq | hmem
    · injection heq with h1 h2
      simp [get, h1, h2]
    · have hk : k' ≠ k := by
        intro hk
        apply hnd.1
        rw [hk]
        exact List.mem_map_of_mem Prod.fst hmem
      simp [get, hk, ih hnd.2 hmem]

theorem delete_eq_self {K V : Type} [DecidableEq K] (m : List (K × V)) (k : K)
    (h : get m k = none) : delete m k = m := by
  rw [get_eq_none_iff] at h
  unfold delete
  rw [List.filter_eq_self]
  intro p hp
  simp only [ne_eq, decide_not, Bool.not_eq_true', decide_eq_false_iff_not]
  intro hk
  exact h (hk ▸ List.mem_map_of_mem Prod.fst hp)

end GoMap

/-! ## Lemmas on the list operations -/

namespace lru

theorem findElement_some {l : List Element} {ele : Nat} {e : Element}
    (h : findElement l ele = some e) : e ∈ l ∧ e.id = ele := by
  unfold findElement at h
  refine ⟨List.mem_of_find?_eq_some h, ?_⟩
  simpa using List.find?_some h

theorem findElement_of_mem {l : List Element} {e : Element}
    (hnd : (l.map Element.id).Nodup) (he : e ∈ l) : findElement l e.id = some e := by
  induction l with
  | nil => simp at he
  | cons x xs ih =>
    simp only [List.map_cons, List.nodup_cons] at hnd
    rcases List.mem_cons.1 he with heq | hmem
    · simp [findElement, heq]
    · have hx : x.id ≠ e.id := by
        intro hx
        apply hnd.1
        rw [hx]
        exact List.mem_map_of_mem Element.id hmem
      have := ih hnd.2 hmem
      unfold findElement at this ⊢
      simp [List.find?_cons, hx, this]

theorem findElement_none {l : List Element} {ele : Nat}
    (h : findElement l ele = none) : ∀ e ∈ l, e.id ≠ ele := by
  unfold findElement at h
  rw [List.find?_eq_none] at h
  intro e he
  simpa using h e he

theorem Remove_of_not_mem {l : List Element} {ele : Nat}
    (h : ele ∉ l.map Element.id) : Remove l ele = l := by
  unfold Remove
  rw [List.filter_eq_self]
  intro a ha
  simp only [ne_eq, decide_not, Bool.not_eq_true', decide_eq_false_iff_not]
  intro hid
  exact h (hid ▸ List.mem_map_of_mem Element.id ha)

theorem Remove_perm {l : List Element} {e : Element}
    (hnd : (l.map Element.id).Nodup) (he : e ∈ l) : (e :: Remove l e.id).Perm l := by
  induction l with
  | nil => simp at he
  | cons x xs ih =>
    simp only [List.map_cons, List.nodup_cons] at hnd
    rcases List.mem_cons.1 he with heq | hmem
    · subst heq
      have : Remove (e :: xs) e.id = xs := by
        have h1 := Remove_of_not_mem hnd.1
        unfold Remove at h1 ⊢
        rw [List.filter_cons]
        simpa using h1
      rw [this]
    · have hx : x.id ≠ e.id := by
        intro hx
        apply hnd.1
        rw [hx]
        exact List.mem_map_of_mem Element.id hmem
      have : Remove (x :: xs) e.id = x :: Remove xs e.id := by
        unfold Remove
        simp [List.filter_cons, hx]
      rw [this]
      exact (List.Perm.swap x e _).trans ((ih hnd.2 hmem).cons x)

theorem Remove_append_last {rest : List Element} {e : Element}
    (hnd : ((rest ++ [e]).map Element.id).Nodup) : Remove (rest ++ [e]) e.id = rest := by
  rw [List.map_append, List.nodup_append] at hnd
  have hne : e.id ∉ rest.map Element.id := by
    intro h
    exact hnd.2.2 h (by simp)
  have h1 := Remove_of_not_mem hne
  unfold Remove at h1 ⊢
  rw [List.filter_append, h1]
  simp

theorem MoveToFront_perm {l : List Element} (ele : Nat)
    (hnd : (l.map Element.id).Nodup) : (MoveToFront l ele).Perm l := by
  unfold MoveToFront
  cases h : findElement l ele with
  | none => exact List.Perm.refl _
  | some e =>
    obtain ⟨hmem, hid⟩ := findElement_some h
    subst hid
    exact Remove_perm hnd hmem

theorem MoveToFront_of_mem {l : List Element} {e : Element}
    (hnd : (l.map Element.id).Nodup) (he : e ∈ l) :
    MoveToFront l e.id = e :: Remove l e.id := by
  unfold MoveToFront
  rw [findElement_of_mem hnd he]

theorem setValue_map_id (l : List Element) (ele : Nat) (value : Value) :
    (setValue l ele value).map Element.id = l.map Element.id := by
  unfold setValue
  rw [List.map_map]
  apply List.map_congr_left
  intro e _
  by_cases h : e.id = ele <;> simp [h]

theorem setValue_map_key (l : List Element) (ele : Nat) (value : Value) :
    (setValue l ele value).map (fun e => e.Value.key) = l.map (fun e => e.Value.key) := by
  unfold setValue
  rw [List.map_map]
  apply List.map_congr_left
  intro e _
  by_cases h : e.id = ele <;> simp [h]

theorem setValue_map_indexPair (l : List Element) (ele : Nat) (value : Value) :
    (setValue l ele value).map indexPair = l.map indexPair := by
  unfold setValue
  rw [List.map_map]
  apply List.map_congr_left
  intro e _
  by_cases h : e.id = ele <;> simp [h, indexPair]

theorem setValue_cons_hit (e : Element) (rest : List Element) (value : Value)
    (hne : e.id ∉ rest.map Element.id) :
    setValue (e :: rest) e.id value =
      { id := e.id, Value := { key := e.Value.key, value := value } } :: rest := by
  unfold setValue
  simp only [List.map_cons, if_true]
  congr 1
  conv_rhs => rw [← List.map_id rest]
  apply List.map_congr_left
  intro x hx
  have : x.id ≠ e.id := fun h => hne (h ▸ List.mem_map_of_mem Element.id hx)
  simp [this]

theorem freshId_not_mem (l : List Element) : freshId l ∉ l.map Element.id := by
  have key : ∀ (l : List Element), ∀ e ∈ l, e.id ≤ (l.map Element.id).foldr max 0 := by
    intro l
    induction l with
    | nil => simp
    | cons x xs ih =>
      intro e he
      simp only [List.map_cons, List.foldr_cons]
      rcases List.mem_cons.1 he with heq | hmem
      · subst heq
        exact le_max_left _ _
      · exact le_trans (ih e hmem) (le_max_right _ _)
  intro h
  obtain ⟨e, he, hid⟩ := List.mem_map.1 h
  have := key l e he
  unfold freshId at hid
  omega

end lru

/-! ## Well-formedness is an invariant -/

namespace lru

theorem WF_New (m : Int) (cb : Bool) : WF (New m cb) := by
  simp [WF, New]

theorem map_indexPair_fst (l : List Element) :
    (l.map indexPair).map Prod.fst = l.map (fun e => e.Value.key) := by
  rw [List.map_map]
  rfl

theorem WF.cache_keys_nodup {c : Cache} (h : WF c) : (c.cache.map Prod.fst).Nodup := by
  have hp := h.2.2.map Prod.fst
  rw [hp.nodup_iff, map_indexPair_fst]
  exact h.2.1

theorem WF.get_some_iff {c : Cache} (h : WF c) (k : String) (ele : Nat) :
    GoMap.get c.cache k = some ele ↔ ∃ e ∈ c.ll, e.id = ele ∧ e.Value.key = k := by
  constructor
  · intro hg
    have hm := (h.2.2.mem_iff).1 (GoMap.mem_of_get_eq_some _ _ _ hg)
    obtain ⟨e, he, hpair⟩ := List.mem_map.1 hm
    simp only [indexPair, Prod.mk.injEq] at hpair
    exact ⟨e, he, hpair.2, hpair.1⟩
  · rintro ⟨e, he, hid, hk⟩
    apply GoMap.get_eq_some_of_mem _ _ _ h.cache_keys_nodup
    apply (h.2.2.mem_iff).2
    apply List.mem_map.2
    exact ⟨e, he, by simp [indexPair, hid, hk]⟩

theorem WF.get_none_iff {c : Cache} (h : WF c) (k : String) :
    GoMap.get c.cache k = none ↔ k ∉ c.ll.map (fun e => e.Value.key) := by
  rw [GoMap.get_eq_none_iff, ← map_indexPair_fst]
  exact Iff.not ((h.2.2.map Prod.fst).mem_iff)

theorem WF_of_perm {c : Cache} (h : WF c) {l : List Element} (hp : l.Perm c.ll) :
    WF { c with ll := l } := by
  refine ⟨?_, ?_, ?_⟩
  · exact ((hp.map Element.id).nodup_iff).2 h.1
  · exact ((hp.map _).nodup_iff).2 h.2.1
  · exact h.2.2.trans (hp.map indexPair).symm

theorem WF_Get {c : Cache} (h : WF c) (key : String) : WF (Get c key).2 := by
  unfold Get
  cases hg : GoMap.get c.cache key with
  | none => exact h
  | some ele => exact WF_of_perm h (MoveToFront_perm ele h.1)

theorem WF_AddNoEvict {c : Cache} (h : WF c) (key : String) (value : Value) :
    WF (AddNoEvict c key value) := by
  unfold AddNoEvict
  cases hg : GoMap.get c.cache key with
  | some ele =>
    have hp := MoveToFront_perm ele h.1
    refine ⟨?_, ?_, ?_⟩
    · simp only [setValue_map_id]
      exact ((hp.map Element.id).nodup_iff).2 h.1
    · simp only [setValue_map_key]
      exact ((hp.map _).nodup_iff).2 h.2.1
    · simp only [setValue_map_indexPair]
      exact h.2.2.trans (hp.map indexPair).symm
  | none =>
    have hk := (h.get_none_iff key).1 hg
    refine ⟨?_, ?_, ?_⟩
    · simp only [List.map_cons, List.nodup_cons]
      exact ⟨freshId_not_mem c.ll, h.1⟩
    · simp only [List.map_cons, List.nodup_cons]
      exact ⟨hk, h.2.1⟩
    · simp only [GoMap.set, GoMap.delete_eq_self _ _ hg, List.map_cons, indexPair]
      exact h.2.2.cons _

theorem RemoveOldest_nil {c : Cache} (h : c.ll = []) : RemoveOldest c = c := by
  unfold RemoveOldest Back
  rw [h]
  rfl

theorem RemoveOldest_append {c : Cache} (h : WF c) {rest : List Element} {e : Element}
    (hl : c.ll = rest ++ [e]) :
    RemoveOldest c =
      { c with
        ll := rest
        cache := GoMap.delete c.cache e.Value.key
        nbytes := c.nbytes - e.Value.size
        evicted := if c.OnEvicted then e.Value :: c.evicted else c.evicted } := by
  have hnd := h.1
  rw [hl] at hnd
  unfold RemoveOldest Back
  rw [hl]
  have hb : (rest ++ [e]).getLast? = some e := by simp
  rw [hb]
  simp only
  rw [Remove_append_last hnd]
  rfl

theorem WF_RemoveOldest {c : Cache} (h : WF c) : WF (RemoveOldest c) := by
  rcases List.eq_nil_or_concat c.ll with hnil | ⟨rest, e, hl⟩
  · rw [RemoveOldest_nil hnil]
    exact h
  · rw [List.concat_eq_append] at hl
    rw [RemoveOldest_append h hl]
    obtain ⟨h1, h2, h3⟩ := h
    rw [hl] at h1 h2 h3
    rw [List.map_append, List.nodup_append] at h1 h2
    refine ⟨h1.1, h2.1, ?_⟩
    have hf := h3.filter (fun p => decide (p.1 ≠ e.Value.key))
    have hkeep : (List.map indexPair (rest ++ [e])).filter
        (fun p => decide (p.1 ≠ e.Value.key)) = rest.map indexPair := by
      rw [List.map_append, List.filter_append]
      have hr : (rest.map indexPair).filter (fun p => decide (p.1 ≠ e.Value.key))
          = rest.map indexPair := by
        rw [List.filter_eq_self]
        intro p hp
        obtain ⟨x, hx, rfl⟩ := List.mem_map.1 hp
        simp only [indexPair, ne_eq, decide_not, Bool.not_eq_true', decide_eq_false_iff_not]
        intro hk
        exact h2.2.2 (List.mem_map_of_mem (fun e => e.Value.key) hx) (by simp [hk])
      rw [hr]
      simp [indexPair]
    rw [hkeep] at hf
    exact hf

theorem evictLoop_induct (P : Cache → Prop) (hP : ∀ c, P c → P (RemoveOldest c)) :
    ∀ (fuel : Nat) (c c' : Cache), P c → evictLoop fuel c = some c' → P c' := by
  intro fuel
  induction fuel with
  | zero => intro c c' _ h; simp [evictLoop] at h
  | succ n ih =>
    intro c c' hc h
    unfold evictLoop at h
    split at h
    · exact ih _ _ (hP c hc) h
    · injection h with h
      exact h ▸ hc

theorem evictLoop_exit : ∀ (fuel : Nat) (c c' : Cache), evictLoop fuel c = some c' →
    ¬ (c'.maxBytes ≠ 0 ∧ c'.maxBytes < c'.nbytes) := by
  intro fuel
  induction fuel with
  | zero => intro c c' h; simp [evictLoop] at h
  | succ n ih =>
    intro c c' h
    unfold evictLoop at h
    split at h
    · exact ih _ _ h
    · rename_i hc
      injection h with h
      exact h ▸ hc

theorem evictLoop_mono : ∀ (fuel : Nat) (c c' : Cache), evictLoop fuel c = some c' →
    ∀ k, evictLoop (fuel + k) c = some c' := by
  intro fuel
  induction fuel with
  | zero => intro c c' h; simp [evictLoop] at h
  | succ n ih =>
    intro c c' h k
    rw [show n + 1 + k = (n + k) + 1 by omega]
    unfold evictLoop at h ⊢
    split
    · rename_i hc
      rw [if_pos hc] at h
      exact ih _ _ h k
    · rename_i hc
      rw [if_neg hc] at h
      exact h

theorem WF_Add {c c' : Cache} (h : WF c) {fuel : Nat} {key : String} {value : Value}
    (ha : Add fuel c key value = some c') : WF c' :=
  evictLoop_induct WF (fun _ => WF_RemoveOldest) fuel _ _ (WF_AddNoEvict h key value) ha

theorem WF_of_Reach {m : Int} {cb : Bool} {h : List Event} {c : Cache}
    (hr : Reach m cb h c) : WF c := by
  induction hr with
  | new => exact WF_New m cb
  | add fuel key value _ ha ih => exact WF_Add ih ha
  | get key _ ih => exact WF_Get ih key
  | removeOldest _ ih => exact WF_RemoveOldest ih

end lru

/-! ## Byte accounting -/

namespace lru

theorem id_not_mem_Remove (l : List Element) (ele : Nat) :
    ele ∉ (Remove l ele).map Element.id := by
  intro h
  obtain ⟨e, he, hid⟩ := List.mem_map.1 h
  unfold Remove at he
  have := (List.mem_filter.1 he).2
  simp [hid] at this

theorem AddNoEvict_present {c : Cache} (h : WF c) {key : String} {ele : Nat}
    (hg : GoMap.get c.cache key = some ele) (value : Value) :
    ∃ e ∈ c.ll, e.id = ele ∧ e.Value.key = key ∧
      AddNoEvict c key value =
        { c with
          ll := { id := ele, Value := { key := key, value := value } } :: Remove c.ll ele
          nbytes := c.nbytes + (value.Len - value.Len) } := by
  obtain ⟨e, he, hid, hk⟩ := (h.get_some_iff key ele).1 hg
  refine ⟨e, he, hid, hk, ?_⟩
  subst hid
  subst hk
  unfold AddNoEvict
  rw [hg]
  simp only
  rw [MoveToFront_of_mem h.1 he, setValue_cons_hit e _ value (id_not_mem_Remove _ _)]
  simp [findElement]

theorem AddNoEvict_absent {c : Cache} {key : String}
    (hg : GoMap.get c.cache key = none) (value : Value) :
    AddNoEvict c key value =
      { c with
        ll := { id := freshId c.ll, Value := { key := key, value := value } } :: c.ll
        cache := (key, freshId c.ll) :: c.cache
        nbytes := c.nbytes + ((key.utf8ByteSize : Int) + value.Len) } := by
  unfold AddNoEvict
  rw [hg]
  simp only [GoMap.set, GoMap.delete_eq_self _ _ hg]

theorem liveBytes_perm {c c' : Cache} (hp : c'.ll.Perm c.ll) : liveBytes c' = liveBytes c := by
  unfold liveBytes
  exact (hp.map _).sum_eq

theorem Get_fields (c : Cache) (key : String) :
    (Get c key).2.maxBytes = c.maxBytes ∧ (Get c key).2.nbytes = c.nbytes ∧
      (Get c key).2.cache = c.cache ∧ (Get c key).2.evicted = c.evicted ∧
      (Get c key).2.OnEvicted = c.OnEvicted := by
  unfold Get
  cases GoMap.get c.cache key <;> simp

theorem Get_ll_perm {c : Cache} (h : WF c) (key : String) : (Get c key).2.ll.Perm c.ll := by
  unfold Get
  cases GoMap.get c.cache key with
  | none => exact List.Perm.refl _
  | some ele => exact MoveToFront_perm ele h.1

theorem RemoveOldest_maxBytes (c : Cache) : (RemoveOldest c).maxBytes = c.maxBytes := by
  unfold RemoveOldest
  cases Back c.ll <;> rfl

theorem RemoveOldest_drift {c : Cache} (h : WF c) :
    (RemoveOldest c).nbytes - liveBytes (RemoveOldest c) = c.nbytes - liveBytes c := by
  rcases List.eq_nil_or_concat c.ll with hnil | ⟨rest, e, hl⟩
  · rw [RemoveOldest_nil hnil]
  · rw [List.concat_eq_append] at hl
    rw [RemoveOldest_append h hl]
    unfold liveBytes
    rw [hl]
    simp only [List.map_append, List.sum_append, List.map_cons, List.map_nil, List.sum_cons,
      List.sum_nil]
    omega

theorem RemoveOldest_length {c : Cache} (h : WF c) :
    (RemoveOldest c).ll.length = c.ll.length - 1 := by
  rcases List.eq_nil_or_concat c.ll with hnil | ⟨rest, e, hl⟩
  · rw [RemoveOldest_nil hnil, hnil]
    rfl
  · rw [List.concat_eq_append] at hl
    rw [RemoveOldest_append h hl, hl]
    simp

theorem evictLoop_maxBytes : ∀ (fuel : Nat) (c c' : Cache), evictLoop fuel c = some c' →
    c'.maxBytes = c.maxBytes := by
  intro fuel c c' h
  exact evictLoop_induct (fun x => x.maxBytes = c.maxBytes)
    (fun x hx => (RemoveOldest_maxBytes x).trans hx) fuel c c' rfl h

theorem evictLoop_drift : ∀ (fuel : Nat) (c c' : Cache), WF c → evictLoop fuel c = some c' →
    c'.nbytes - liveBytes c' = c.nbytes - liveBytes c := by
  intro fuel c c' hwf h
  have := evictLoop_induct (fun x => WF x ∧ x.nbytes - liveBytes x = c.nbytes - liveBytes c)
    (fun x hx => ⟨WF_RemoveOldest hx.1, by rw [RemoveOldest_drift hx.1]; exact hx.2⟩)
    fuel c c' ⟨hwf, rfl⟩ h
  exact this.2

theorem AddNoEvict_maxBytes (c : Cache) (key : String) (value : Value) :
    (AddNoEvict c key value).maxBytes = c.maxBytes := by
  unfold AddNoEvict
  cases GoMap.get c.cache key <;> rfl

theorem AddNoEvict_length_le {c : Cache} (h : WF c) (key : String) (value : Value) :
    (AddNoEvict c key value).ll.length ≤ c.ll.length + 1 := by
  cases hg : GoMap.get c.cache key with
  | none =>
    rw [AddNoEvict_absent hg]
    simp
  | some ele =>
    obtain ⟨e, he, hid, _, heq⟩ := AddNoEvict_present h hg value
    rw [heq]
    subst hid
    have := (Remove_perm h.1 he).length_eq
    simp only [List.length_cons] at this ⊢
    omega

end lru

/-! ## The capacity bound on the counter -/

namespace lru

theorem Reach_of_ReachAdd {m : Int} {cb : Bool} {c : Cache} (hr : ReachAdd m cb c) :
    ∃ h, Reach m cb h c := by
  induction hr with
  | new => exact ⟨[], Reach.new⟩
  | add fuel key value _ ha ih =>
    obtain ⟨h, hh⟩ := ih
    exact ⟨_, Reach.add fuel key value hh ha⟩

theorem evictLoop_diverges {c : Cache} (hnil : c.ll = []) (h0 : c.maxBytes ≠ 0)
    (hlt : c.maxBytes < c.nbytes) : ∀ fuel, evictLoop fuel c = none := by
  intro fuel
  induction fuel with
  | zero => rfl
  | succ n ih =>
    unfold evictLoop
    rw [if_pos ⟨h0, hlt⟩, RemoveOldest_nil hnil]
    exact ih

/-- C1 (the code at the failing input): on a store of capacity 10, `Add("a", 1 byte)`
followed by `Add("a", 20 bytes)` completes and leaves one live entry of
`1 + 20 = 21` bytes, more than the capacity, while the counter still reads 2. -/
theorem C1_live_bytes_exceed_capacity :
    ∃ c1 c2, Add 1 (New 10 false) "a" (bytes 1) = some c1 ∧ Add 1 c1 "a" (bytes 20) = some c2 ∧
      c2.maxBytes = 10 ∧ liveBytes c2 = 21 ∧ c2.nbytes = 2 ∧ Len c2 = 1 := by
  refine ⟨_, _, rfl, rfl, ?_, ?_, ?_, ?_⟩ <;> decide

/-- C2 (the code at the failing input): on an unbounded store, `Add("k", 3 bytes)`
followed by `Add("k", 1 byte)` leaves the counter at 4 although the recomputed
sum over the live entries is 2. -/
theorem C2_counter_differs_from_recomputed_sum :
    ∃ c1 c2, Add 1 (New 0 false) "k" (bytes 3) = some c1 ∧ Add 1 c1 "k" (bytes 1) = some c2 ∧
      c2.nbytes = 4 ∧ liveBytes c2 = 2 := by
  refine ⟨_, _, rfl, rfl, ?_, ?_⟩ <;> decide

/-- C3 (the code at the failing input): when `"k"` is present with a 1-byte value,
the first statement of `Add("k", 5 bytes)` replaces the value and leaves the
counter unchanged, where the size delta is `5 - 1 = 4`. -/
theorem C3_update_adds_zero :
    ∃ c1, Add 1 (New 0 false) "k" (bytes 1) = some c1 ∧
      (Get c1 "k").1 = some (bytes 1) ∧
      (Get (AddNoEvict c1 "k" (bytes 5)) "k").1 = some (bytes 5) ∧
      (AddNoEvict c1 "k" (bytes 5)).nbytes - c1.nbytes = 0 ∧
      (bytes 5).Len - (bytes 1).Len = 4 := by
  refine ⟨_, rfl, ?_, ?_, ?_, ?_⟩ <;> decide

end lru

/-! ## Recency order and stored values -/

namespace lru

theorem lastTouch_le (h : List Event) (k : String) : lastTouch h k ≤ h.length := by
  induction h with
  | nil => simp [lastTouch]
  | cons ev h ih =>
    unfold lastTouch
    split
    · simp
    · simp only [List.length_cons]
      omega

theorem lastTouch_cons_touch {ev : Event} {k : String} (h : List Event)
    (ht : ev.touches k = true) : lastTouch (ev :: h) k = h.length + 1 := by
  simp [lastTouch, ht]

theorem lastTouch_cons_not {ev : Event} {k : String} (h : List Event)
    (ht : ev.touches k = false) : lastTouch (ev :: h) k = lastTouch h k := by
  simp [lastTouch, ht]

theorem recency_front {h : List Event} {ev : Event} (key : String) {hd : Element}
    {rest : List Element} (hk : hd.Value.key = key) (ht : ev.touches key = true)
    (hnt : ∀ k, k ≠ key → ev.touches k = false)
    (hrest : ∀ e ∈ rest, e.Value.key ≠ key)
    (hp : rest.Pairwise (fun e1 e2 => lastTouch h e2.Value.key < lastTouch h e1.Value.key)) :
    (hd :: rest).Pairwise
      (fun e1 e2 => lastTouch (ev :: h) e2.Value.key < lastTouch (ev :: h) e1.Value.key) := by
  rw [List.pairwise_cons]
  constructor
  · intro e he
    rw [hk, lastTouch_cons_touch h ht, lastTouch_cons_not h (hnt _ (hrest e he))]
    have := lastTouch_le h e.Value.key
    omega
  · apply hp.imp_of_mem
    intro a b ha hb hab
    rw [lastTouch_cons_not h (hnt _ (hrest a ha)), lastTouch_cons_not h (hnt _ (hrest b hb))]
    exact hab

theorem recency_quiet {h : List Event} {ev : Event} {l : List Element}
    (hnt : ∀ k, ev.touches k = false)
    (hp : l.Pairwise (fun e1 e2 => lastTouch h e2.Value.key < lastTouch h e1.Value.key)) :
    l.Pairwise
      (fun e1 e2 => lastTouch (ev :: h) e2.Value.key < lastTouch (ev :: h) e1.Value.key) := by
  apply hp.imp
  intro a b hab
  rw [lastTouch_cons_not h (hnt _), lastTouch_cons_not h (hnt _)]
  exact hab

theorem Remove_sublist (l : List Element) (ele : Nat) : (Remove l ele).Sublist l :=
  List.filter_sublist l

theorem Remove_key_ne {c : Cache} (h : WF c) {e : Element} (he : e ∈ c.ll) :
    ∀ x ∈ Remove c.ll e.id, x.Value.key ≠ e.Value.key := by
  intro x hx hk
  have hxl : x ∈ c.ll := (Remove_sublist _ _).subset hx
  have heq : x = e := List.inj_on_of_nodup_map h.2.1 hxl he hk
  subst heq
  exact id_not_mem_Remove c.ll x.id (List.mem_map_of_mem Element.id hx)

theorem RemoveOldest_sublist (c : Cache) : (RemoveOldest c).ll.Sublist c.ll := by
  unfold RemoveOldest
  cases Back c.ll with
  | none => exact List.Sublist.refl _
  | some e => exact Remove_sublist _ _

theorem evictLoop_sublist (fuel : Nat) (c c' : Cache) (h : evictLoop fuel c = some c') :
    c'.ll.Sublist c.ll :=
  evictLoop_induct (fun x => x.ll.Sublist c.ll)
    (fun x hx => (RemoveOldest_sublist x).trans hx) fuel c c' (List.Sublist.refl _) h

theorem Get_hit {c : Cache} (h : WF c) {key : String} {ele : Nat}
    (hg : GoMap.get c.cache key = some ele) :
    ∃ e ∈ c.ll, e.id = ele ∧ e.Value.key = key ∧
      Get c key = (some e.Value.value, { c with ll := e :: Remove c.ll ele }) := by
  obtain ⟨e, he, hid, hk⟩ := (h.get_some_iff key ele).1 hg
  refine ⟨e, he, hid, hk, ?_⟩
  subst hid
  unfold Get
  rw [hg]
  simp only
  rw [MoveToFront_of_mem h.1 he]
  simp [findElement]

theorem Get_miss {c : Cache} {key : String} (hg : GoMap.get c.cache key = none) :
    Get c key = (none, c) := by
  unfold Get
  rw [hg]

/-- The live entries hold the value of the most recent `Add` of their key. -/
theorem Reach_lastAdd {m : Int} {cb : Bool} {h : List Event} {c : Cache}
    (hr : Reach m cb h c) : ∀ e ∈ c.ll, lastAdd h e.Value.key = some e.Value.value := by
  induction hr with
  | new => intro e he; simp [New] at he
  | @add h c c' fuel key value hrc ha ih =>
    have hwf := WF_of_Reach hrc
    intro e he
    have he' := (evictLoop_sublist _ _ _ ha).subset he
    cases hg : GoMap.get c.cache key with
    | none =>
      rw [AddNoEvict_absent hg] at he'
      rcases List.mem_cons.1 he' with heq | hmem
      · subst heq
        simp [lastAdd]
      · have hk : key ≠ e.Value.key := by
          intro hk
          exact (hwf.get_none_iff key).1 hg (hk ▸ List.mem_map_of_mem _ hmem)
        simp only [lastAdd, if_neg hk]
        exact ih e hmem
    | some ele =>
      obtain ⟨x, hx, hid, hxk, heq⟩ := AddNoEvict_present hwf hg value
      rw [heq] at he'
      rcases List.mem_cons.1 he' with heq | hmem
      · subst heq
        simp [lastAdd]
      · subst hid
        have hk : key ≠ e.Value.key := by
          intro hk
          exact Remove_key_ne hwf hx e hmem (hk ▸ hxk.symm ▸ rfl)
        simp only [lastAdd, if_neg hk]
        exact ih e ((Remove_sublist _ _).subset hmem)
  | @get h c key hrc ih =>
    intro e he
    have hmem := (Get_ll_perm (WF_of_Reach hrc) key).subset he
    have := ih e hmem
    unfold getEvent
    split <;> simpa [lastAdd] using this
  | @removeOldest h c hrc ih =>
    intro e he
    have := ih e ((RemoveOldest_sublist c).subset he)
    simpa [lastAdd] using this

/-- The recency list is ordered by the time of the last touch, newest first. -/
theorem Reach_recency {m : Int} {cb : Bool} {h : List Event} {c : Cache}
    (hr : Reach m cb h c) :
    c.ll.Pairwise (fun e1 e2 => lastTouch h e2.Value.key < lastTouch h e1.Value.key) := by
  induction hr with
  | new => simp [New]
  | @add h c c' fuel key value hrc ha ih =>
    have hwf := WF_of_Reach hrc
    apply List.Pairwise.sublist (evictLoop_sublist _ _ _ ha)
    have ht : (Event.add key value).touches key = true := by simp [Event.touches]
    have hnt : ∀ k, k ≠ key → (Event.add key value).touches k = false := by
      intro k hk
      simp [Event.touches, Ne.symm hk]
    cases hg : GoMap.get c.cache key with
    | none =>
      rw [AddNoEvict_absent hg]
      apply recency_front key rfl ht hnt _ ih
      intro e he hk
      exact (hwf.get_none_iff key).1 hg (hk ▸ List.mem_map_of_mem _ he)
    | some ele =>
      obtain ⟨x, hx, hid, hxk, heq⟩ := AddNoEvict_present hwf hg value
      rw [heq]
      subst hid
      apply recency_front key rfl ht hnt _ (ih.sublist (Remove_sublist _ _))
      intro e he
      rw [← hxk]
      exact Remove_key_ne hwf hx e he
  | @get h c key hrc ih =>
    have hwf := WF_of_Reach hrc
    cases hg : GoMap.get c.cache key with
    | none =>
      have hm := Get_miss hg
      unfold getEvent
      rw [hm]
      exact recency_quiet (by intro k; simp [Event.touches]) ih
    | some ele =>
      obtain ⟨x, hx, hid, hxk, heq⟩ := Get_hit hwf hg
      unfold getEvent
      rw [heq]
      subst hid
      simp only [Option.isSome_some, if_true]
      apply recency_front key hxk (by simp [Event.touches]) _ _ (ih.sublist (Remove_sublist _ _))
      · intro k hk
        simp [Event.touches, Ne.symm hk]
      · intro e he
        rw [← hxk]
        exact Remove_key_ne hwf hx e he
  | @removeOldest h c hrc ih =>
    exact recency_quiet (by intro k; simp [Event.touches])
      (ih.sublist (RemoveOldest_sublist c))

end lru

/-! ## The LRU scenario -/

namespace lru

theorem evictLoop_stop {c : Cache} (fuel : Nat)
    (h : ¬ (c.maxBytes ≠ 0 ∧ c.maxBytes < c.nbytes)) : evictLoop (fuel + 1) c = some c := by
  unfold evictLoop
  rw [if_neg h]

theorem evictLoop_step {c : Cache} (fuel : Nat)
    (h : c.maxBytes ≠ 0 ∧ c.maxBytes < c.nbytes) :
    evictLoop (fuel + 1) c = evictLoop fuel (RemoveOldest c) := by
  show (if c.maxBytes ≠ 0 ∧ c.maxBytes < c.nbytes then evictLoop fuel (RemoveOldest c)
    else some c) = _
  rw [if_pos h]

end lru

/-! ## RemoveOldest, Get and the index -/

namespace lru

theorem Reach_maxBytes {m : Int} {cb : Bool} {h : List Event} {c : Cache}
    (hr : Reach m cb h c) : c.maxBytes = m := by
  induction hr with
  | new => rfl
  | add fuel key value _ ha ih =>
    unfold Add at ha
    rw [evictLoop_maxBytes _ _ _ ha, AddNoEvict_maxBytes]
    exact ih
  | get key _ ih =>
    rw [(Get_fields _ key).1]
    exact ih
  | removeOldest _ ih =>
    rw [RemoveOldest_maxBytes]
    exact ih

theorem Get_found {m : Int} {cb : Bool} {h : List Event} {c : Cache}
    (hr : Reach m cb h c) (k : String) :
    ((Get c k).1.isSome = true ↔ k ∈ c.ll.map (fun e => e.Value.key)) ∧
      ∀ v, (Get c k).1 = some v → lastAdd h k = some v := by
  have hwf := WF_of_Reach hr
  cases hg : GoMap.get c.cache k with
  | none =>
    rw [Get_miss hg]
    have := (hwf.get_none_iff k).1 hg
    simp [this]
  | some ele =>
    obtain ⟨e, he, _, hk, heq⟩ := Get_hit hwf hg
    rw [heq]
    constructor
    · simp only [Option.isSome_some, true_iff]
      exact hk ▸ List.mem_map_of_mem (fun e => e.Value.key) he
    · intro v hv
      simp only [Option.some.injEq] at hv
      rw [← hv, ← hk]
      exact Reach_lastAdd hr e he

theorem AddNoEvict_key_mem {c : Cache} (h : WF c) (key : String) (value : Value) :
    key ∈ (AddNoEvict c key value).ll.map (fun e => e.Value.key) := by
  cases hg : GoMap.get c.cache key with
  | none =>
    rw [AddNoEvict_absent hg]
    simp
  | some ele =>
    obtain ⟨_, _, _, _, heq⟩ := AddNoEvict_present h hg value
    rw [heq]
    simp

/-- C6: in every reachable state, `RemoveOldest` on an empty store returns the store
unchanged; on a non-empty store the recency list is `rest ++ [e]`, the call
leaves exactly `rest` (every other entry, with its value, in the same order),
removes the key of `e` from the index, shortens the store by one, and `e` is
the live entry whose last touch (an `Add` of its key or a `Get` that hit it)
is strictly earlier than that of every other live entry. -/
theorem C6_RemoveOldest_removes_least_recent (m : Int) (cb : Bool) (h : List Event)
    (c : Cache) (hr : Reach m cb h c) :
    (c.ll = [] → RemoveOldest c = c) ∧
      (c.ll ≠ [] → ∃ rest e, c.ll = rest ++ [e] ∧ (RemoveOldest c).ll = rest ∧
        (RemoveOldest c).cache = GoMap.delete c.cache e.Value.key ∧
        Len (RemoveOldest c) + 1 = Len c ∧
        e.Value.key ∉ rest.map (fun x => x.Value.key) ∧
        (Get (RemoveOldest c) e.Value.key).1 = none ∧
        ∀ x ∈ rest, lastTouch h e.Value.key < lastTouch h x.Value.key) := by
  have hwf := WF_of_Reach hr
  refine ⟨RemoveOldest_nil, ?_⟩
  intro hne
  rcases List.eq_nil_or_concat c.ll with hnil | ⟨rest, e, hl⟩
  · exact absurd hnil hne
  · rw [List.concat_eq_append] at hl
    have hrec := Reach_recency hr
    have hkeys := hwf.2.1
    rw [hl] at hrec hkeys
    rw [List.pairwise_append] at hrec
    rw [List.map_append, List.nodup_append] at hkeys
    have hnot : e.Value.key ∉ rest.map (fun x => x.Value.key) :=
      fun hmem => hkeys.2.2 hmem (by simp)
    have hwf' := WF_RemoveOldest hwf
    have hll : (RemoveOldest c).ll = rest := by rw [RemoveOldest_append hwf hl]
    refine ⟨rest, e, hl, hll, ?_, ?_, hnot, ?_, ?_⟩
    · rw [RemoveOldest_append hwf hl]
    · unfold Len
      rw [hll, hl]
      simp
    · have hnone : GoMap.get (RemoveOldest c).cache e.Value.key = none := by
        rw [hwf'.get_none_iff, hll]
        exact hnot
      rw [Get_miss hnone]
    · intro x hx
      exact hrec.2.2 x hx e (by simp)

/-- C6 (witness): the store after `Add("a")`, `Add("b")` on an unbounded store. -/
theorem C6_RemoveOldest_removes_least_recent_witness :
    (RemoveOldest (AddNoEvict (AddNoEvict (New 0 false) "a" (bytes 1)) "b" (bytes 2))).ll
      = [⟨2, ⟨"b", bytes 2⟩⟩] := by
  have hr : Reach 0 false [.add "b" (bytes 2), .add "a" (bytes 1)]
      (AddNoEvict (AddNoEvict (New 0 false) "a" (bytes 1)) "b" (bytes 2)) :=
    Reach.add 1 "b" (bytes 2) (Reach.add 1 "a" (bytes 1) Reach.new rfl) rfl
  obtain ⟨rest, e, hl, hrest, _⟩ :=
    (C6_RemoveOldest_removes_least_recent 0 false _ _ hr).2 (by decide)
  rw [hrest]
  have hl' : [(⟨2, ⟨"b", bytes 2⟩⟩ : Element)] ++ [⟨1, ⟨"a", bytes 1⟩⟩] = rest ++ [e] := by
    rw [← hl]
    decide
  exact (List.append_inj_left' hl' rfl).symm

/-- C7: in every reachable state and for every key `k`, `Get(k)` reports found exactly
when `k` is the key of a live entry, the value it returns is the one passed to
the most recent `Add(k, .)` of the history, and on an unbounded store
(capacity 0) `Add(k, v)` completes and `Get(k)` right after it returns
`(v, true)`. -/
theorem C7_Get_returns_last_added (m : Int) (cb : Bool) (h : List Event) (c : Cache)
    (hr : Reach m cb h c) (k : String) :
    ((Get c k).1.isSome = true ↔ k ∈ c.ll.map (fun e => e.Value.key)) ∧
      (∀ v, (Get c k).1 = some v → lastAdd h k = some v) ∧
      (m = 0 → ∀ v, ∃ c', Add 1 c k v = some c' ∧ (Get c' k).1 = some v) := by
  refine ⟨(Get_found hr k).1, (Get_found hr k).2, ?_⟩
  intro hm v
  have hwf := WF_of_Reach hr
  have hadd : Add 1 c k v = some (AddNoEvict c k v) := by
    unfold Add
    apply evictLoop_stop
    rw [AddNoEvict_maxBytes, Reach_maxBytes hr, hm]
    simp
  refine ⟨_, hadd, ?_⟩
  have hr' := Reach.add 1 k v hr hadd
  have hfound := Get_found hr' k
  have hsome := hfound.1.2 (AddNoEvict_key_mem hwf k v)
  obtain ⟨w, hw⟩ := Option.isSome_iff_exists.1 hsome
  have := hfound.2 w hw
  simp only [lastAdd, if_true, Option.some.injEq] at this
  rw [hw, this]

/-- C7 (witness): the unbounded store after `Add("a", 1 byte)`, asked for `"a"`. -/
theorem C7_Get_returns_last_added_witness :
    (Get (AddNoEvict (New 0 false) "a" (bytes 1)) "a").1.isSome = true ∧
      lastAdd [.add "a" (bytes 1)] "a" = some (bytes 1) ∧
      ∃ c', Add 1 (AddNoEvict (New 0 false) "a" (bytes 1)) "a" (bytes 3) = some c' ∧
        (Get c' "a").1 = some (bytes 3) := by
  have hr : Reach 0 false [.add "a" (bytes 1)] (AddNoEvict (New 0 false) "a" (bytes 1)) :=
    Reach.add 1 "a" (bytes 1) Reach.new rfl
  have h := C7_Get_returns_last_added 0 false _ _ hr "a"
  exact ⟨h.1.2 (by decide), h.2.1 (bytes 1) (by decide), h.2.2 rfl (bytes 3)⟩

/-- C8: in every reachable state the index and the recency list are consistent: every
indexed key resolves to a node of the list that carries that key, every node's
key is indexed to that node, no key occurs in two nodes, the index holds each
key once, and `Len()` is the number of indexed keys. -/
theorem C8_index_consistent_with_list (m : Int) (cb : Bool) (h : List Event) (c : Cache)
    (hr : Reach m cb h c) :
    (∀ k ele, GoMap.get c.cache k = some ele →
        ∃ e, e ∈ c.ll ∧ findElement c.ll ele = some e ∧ e.Value.key = k) ∧
      (∀ e ∈ c.ll, GoMap.get c.cache e.Value.key = some e.id) ∧
      (c.ll.map (fun e => e.Value.key)).Nodup ∧
      (c.cache.map Prod.fst).Nodup ∧
      Len c = (c.cache.map Prod.fst).length := by
  have hwf := WF_of_Reach hr
  refine ⟨?_, ?_, hwf.2.1, hwf.cache_keys_nodup, ?_⟩
  · intro k ele hg
    obtain ⟨e, he, hid, hk⟩ := (hwf.get_some_iff k ele).1 hg
    exact ⟨e, he, hid ▸ findElement_of_mem hwf.1 he, hk⟩
  · intro e he
    exact (hwf.get_some_iff _ _).2 ⟨e, he, rfl, rfl⟩
  · unfold Len
    rw [List.length_map, hwf.2.2.length_eq, List.length_map]

/-- C8 (witness): the store after `Add("a")`, `Add("b")`, `Get("a")` on capacity 0. -/
theorem C8_index_consistent_with_list_witness :
    Len (Get (AddNoEvict (AddNoEvict (New 0 false) "a" (bytes 1)) "b" (bytes 2)) "a").2 =
      ((Get (AddNoEvict (AddNoEvict (New 0 false) "a" (bytes 1)) "b" (bytes 2)) "a").2.cache.map
        Prod.fst).length :=
  (C8_index_consistent_with_list 0 false _ _
    (Reach.get "a" (Reach.add 1 "b" (bytes 2) (Reach.add 1 "a" (bytes 1) Reach.new rfl) rfl))).2.2.2.2

end lru

/-! ## The ring: binary search and ownership -/

namespace GoMap

theorem get_delete {K V : Type} [DecidableEq K] (m : List (K × V)) (k q : K) :
    get (delete m k) q = if k = q then none else get m q := by
  induction m with
  | nil => simp [delete, get]
  | cons p rest ih =>
    obtain ⟨k', v⟩ := p
    unfold delete at ih ⊢
    by_cases hk : k' = k
    · subst hk
      simp only [List.filter_cons, ne_eq, not_true_eq_false, decide_False, Bool.false_eq_true,
        if_false, ih]
      by_cases hq : k' = q <;> simp [get, hq]
    · simp only [List.filter_cons, ne_eq, hk, not_false_eq_true, decide_True, if_true, get, ih]
      by_cases hq : k' = q
      · subst hq
        simp [Ne.symm hk]
      · simp [hq]

theorem get_set {K V : Type} [DecidableEq K] (m : List (K × V)) (k q : K) (v : V) :
    get (set m k v) q = if k = q then some v else get m q := by
  unfold set
  by_cases hq : k = q
  · simp [get, hq]
  · simp [get, hq, get_delete]

end GoMap

namespace consistenthash

theorem searchLoop_spec (f : Nat → Bool) (n : Nat)
    (hmono : ∀ a b, a ≤ b → b < n → f a = true → f b = true) :
    ∀ fuel i j, i ≤ j → j ≤ n → j - i ≤ fuel → (∀ k, k < i → f k = false) →
      (∀ k, j ≤ k → k < n → f k = true) →
      i ≤ searchLoop f fuel i j ∧ searchLoop f fuel i j ≤ j ∧
        (∀ k, k < searchLoop f fuel i j → f k = false) ∧
        (∀ k, searchLoop f fuel i j ≤ k → k < n → f k = true) := by
  intro fuel
  induction fuel with
  | zero =>
    intro i j hij _ hfuel hlo hhi
    have : i = j := by omega
    subst this
    exact ⟨le_refl _, le_refl _, hlo, hhi⟩
  | succ fuel ih =>
    intro i j hij hjn hfuel hlo hhi
    unfold searchLoop
    by_cases hlt : i < j
    · rw [if_pos hlt]
      have hh1 : i ≤ (i + j) / 2 := by omega
      have hh2 : (i + j) / 2 < j := by omega
      cases hf : f ((i + j) / 2) with
      | false =>
        simp only [hf, Bool.not_false, if_true]
        have hlo' : ∀ k, k < (i + j) / 2 + 1 → f k = false := by
          intro k hk
          cases hfk : f k with
          | false => rfl
          | true =>
            have := hmono k ((i + j) / 2) (by omega) (by omega) hfk
            rw [hf] at this
            exact absurd this (by decide)
        obtain ⟨r1, r2, r3, r4⟩ := ih ((i + j) / 2 + 1) j (by omega) hjn (by omega) hlo' hhi
        exact ⟨by omega, r2, r3, r4⟩
      | true =>
        simp only [hf, Bool.not_true, Bool.false_eq_true, if_false]
        have hhi' : ∀ k, (i + j) / 2 ≤ k → k < n → f k = true := by
          intro k hk hkn
          exact hmono _ k hk hkn hf
        obtain ⟨r1, r2, r3, r4⟩ := ih i ((i + j) / 2) hh1 (by omega) (by omega) hlo hhi'
        exact ⟨r1, by omega, r3, r4⟩
    · rw [if_neg hlt]
      have : i = j := by omega
      subst this
      exact ⟨le_refl _, le_refl _, hlo, hhi⟩

theorem Search_spec (f : Nat → Bool) (n : Nat)
    (hmono : ∀ a b, a ≤ b → b < n → f a = true → f b = true) :
    Search n f ≤ n ∧ (∀ k, k < Search n f → f k = false) ∧
      (∀ k, Search n f ≤ k → k < n → f k = true) := by
  obtain ⟨_, r2, r3, r4⟩ := searchLoop_spec f n hmono n 0 n (Nat.zero_le _) (le_refl _)
    (by omega) (by intro k hk; omega) (by intro k hk hkn; omega)
  exact ⟨r2, r3, r4⟩

theorem sorted_getD_le {l : List Int} (hs : l.Sorted (· ≤ ·)) {a b : Nat} (hab : a ≤ b)
    (hb : b < l.length) : l.getD a 0 ≤ l.getD b 0 := by
  rw [List.getD_eq_getElem l 0 (by omega : a < l.length), List.getD_eq_getElem l 0 hb]
  rcases Nat.eq_or_lt_of_le hab with heq | hlt
  · subst heq
    exact le_refl _
  · exact (List.pairwise_iff_getElem.1 hs) a b (by omega) hb hlt

theorem getD_mem {l : List Int} {i : Nat} (hi : i < l.length) : l.getD i 0 ∈ l := by
  rw [List.getD_eq_getElem l 0 hi]
  exact List.getElem_mem hi

/-- The index `Get` reads: the least index whose entry is `≥ hash(key)`, or
the length of the ring when there is none, taken modulo the length. -/
theorem Get_index {c : Consistence} (hs : c.ring.Sorted (· ≤ ·)) (hne : c.ring ≠ [])
    (key : String) :
    ∃ r, r ≤ c.ring.length ∧ (∀ k, k < r → c.ring.getD k 0 < ((c.hash key).toNat : Int)) ∧
      (∀ k, r ≤ k → k < c.ring.length → ((c.hash key).toNat : Int) ≤ c.ring.getD k 0) ∧
      (Get c key).1 = (GoMap.get c.hashMap (c.ring.getD (r % c.ring.length) 0)).getD "" := by
  have hlen : c.ring.length ≠ 0 := fun h => hne (List.length_eq_zero.1 h)
  have hmono : ∀ a b, a ≤ b → b < c.ring.length →
      (fun i => decide (c.ring.getD i 0 ≥ ((c.hash key).toNat : Int))) a = true →
      (fun i => decide (c.ring.getD i 0 ≥ ((c.hash key).toNat : Int))) b = true := by
    intro a b hab hb ha
    simp only [ge_iff_le, decide_eq_true_eq] at ha ⊢
    exact le_trans ha (sorted_getD_le hs hab hb)
  obtain ⟨s1, s2, s3⟩ := Search_spec _ c.ring.length hmono
  refine ⟨_, s1, ?_, ?_, ?_⟩
  · intro k hk
    have := s2 k hk
    simpa using this
  · intro k hk hkn
    have := s3 k hk hkn
    simpa using this
  · unfold Get
    rw [if_neg hlen]

theorem Get_state (c : Consistence) (key : String) : (Get c key).2 = c := by
  unfold Get
  split <;> rfl

theorem Get_empty {c : Consistence} (h : c.ring = []) (key : String) : (Get c key).1 = "" := by
  unfold Get
  rw [if_pos (by rw [h]; rfl)]

theorem Get_successor {c : Consistence} (hs : c.ring.Sorted (· ≤ ·)) (hne : c.ring ≠ [])
    (key : String) :
    ∃ v, isSuccessor c.ring ((c.hash key).toNat : Int) v ∧
      (Get c key).1 = (GoMap.get c.hashMap v).getD "" := by
  have hpos : 0 < c.ring.length := List.length_pos.2 hne
  obtain ⟨r, hr, hlo, hhi, hget⟩ := Get_index hs hne key
  refine ⟨c.ring.getD (r % c.ring.length) 0, ⟨getD_mem (Nat.mod_lt _ hpos), ?_⟩, hget⟩
  rcases Nat.eq_or_lt_of_le hr with heq | hlt
  · right
    rw [heq, Nat.mod_self]
    constructor
    · intro q hq
      obtain ⟨i, hi, rfl⟩ := List.getElem_of_mem hq
      have := hlo i (by omega)
      rwa [List.getD_eq_getElem c.ring 0 hi] at this
    · intro q hq
      obtain ⟨i, hi, rfl⟩ := List.getElem_of_mem hq
      have := sorted_getD_le hs (Nat.zero_le i) hi
      rwa [List.getD_eq_getElem c.ring 0 hi] at this
  · left
    rw [Nat.mod_eq_of_lt hlt]
    refine ⟨hhi r (le_refl _) hlt, ?_⟩
    intro q hq hxq
    obtain ⟨i, hi, rfl⟩ := List.getElem_of_mem hq
    have hri : r ≤ i := by
      by_contra hcon
      have := hlo i (by omega)
      rw [List.getD_eq_getElem c.ring 0 hi] at this
      omega
    have := sorted_getD_le hs hri hi
    rwa [List.getD_eq_getElem c.ring 0 hi] at this

theorem isSuccessor_unique {ring : List Int} {x v w : Int} (hv : isSuccessor ring x v)
    (hw : isSuccessor ring x w) : v = w := by
  obtain ⟨hvm, hv⟩ := hv
  obtain ⟨hwm, hw⟩ := hw
  rcases hv with ⟨hv1, hv2⟩ | ⟨hv1, hv2⟩ <;> rcases hw with ⟨hw1, hw2⟩ | ⟨hw1, hw2⟩
  · exact le_antisymm (hv2 w hwm hw1) (hw2 v hvm hv1)
  · have := hw1 v hvm
    omega
  · have := hv1 w hwm
    omega
  · exact le_antisymm (hv2 w hwm) (hw2 v hvm)

theorem isSuccessor_of_subset {ring ring' : List Int} {x v : Int} (hsub : ∀ q ∈ ring, q ∈ ring')
    (hv : isSuccessor ring' x v) (hmem : v ∈ ring) : isSuccessor ring x v := by
  refine ⟨hmem, ?_⟩
  rcases hv.2 with ⟨h1, h2⟩ | ⟨h1, h2⟩
  · exact Or.inl ⟨h1, fun q hq => h2 q (hsub q hq)⟩
  · exact Or.inr ⟨fun q hq => h1 q (hsub q hq), fun q hq => h2 q (hsub q hq)⟩

theorem fallsBetween_of_isSuccessor {ring : List Int} {x v : Int} (hv : isSuccessor ring x v) :
    fallsBetween ring v x := by
  rcases hv.2 with ⟨h1, h2⟩ | ⟨h1, h2⟩
  · left
    refine ⟨h1, ?_⟩
    intro q hq hqv
    by_contra hcon
    have := h2 q hq (by omega)
    omega
  · exact Or.inr ⟨h2, h1⟩

end consistenthash

/-! ## The ring: what Add does -/

namespace consistenthash

theorem virtualHash_congr {c c' : Consistence} (h : c'.hash = c.hash) (node : String) (i : Nat) :
    virtualHash c' node i = virtualHash c node i := by
  unfold virtualHash
  rw [h]

theorem addNode_loop_spec (node : String) : ∀ (is : List Nat) (c : Consistence),
    (is.foldl
        (fun c i =>
          { c with
            ring := c.ring ++ [virtualHash c node i]
            hashMap := GoMap.set c.hashMap (virtualHash c node i) node })
        c).hash = c.hash ∧
    (is.foldl
        (fun c i =>
          { c with
            ring := c.ring ++ [virtualHash c node i]
            hashMap := GoMap.set c.hashMap (virtualHash c node i) node })
        c).replicas = c.replicas ∧
    (is.foldl
        (fun c i =>
          { c with
            ring := c.ring ++ [virtualHash c node i]
            hashMap := GoMap.set c.hashMap (virtualHash c node i) node })
        c).ring = c.ring ++ is.map (virtualHash c node) ∧
    ∀ q, GoMap.get (is.foldl
        (fun c i =>
          { c with
            ring := c.ring ++ [virtualHash c node i]
            hashMap := GoMap.set c.hashMap (virtualHash c node i) node })
        c).hashMap q
      = if q ∈ is.map (virtualHash c node) then some node else GoMap.get c.hashMap q := by
  intro is
  induction is with
  | nil => intro c; simp
  | cons i rest ih =>
    intro c
    simp only [List.foldl_cons]
    obtain ⟨h1, h2, h3, h4⟩ := ih
      { c with
        ring := c.ring ++ [virtualHash c node i]
        hashMap := GoMap.set c.hashMap (virtualHash c node i) node }
    have hv : ∀ j, virtualHash
        { c with
          ring := c.ring ++ [virtualHash c node i]
          hashMap := GoMap.set c.hashMap (virtualHash c node i) node } node j
        = virtualHash c node j := fun j => virtualHash_congr rfl node j
    have hmap : rest.map (virtualHash
        { c with
          ring := c.ring ++ [virtualHash c node i]
          hashMap := GoMap.set c.hashMap (virtualHash c node i) node } node)
        = rest.map (virtualHash c node) := List.map_congr_left (fun j _ => hv j)
    rw [hmap] at h3 h4
    refine ⟨h1, h2, ?_, ?_⟩
    · rw [h3]
      simp
    · intro q
      rw [h4 q]
      simp only [GoMap.get_set, List.map_cons, List.mem_cons]
      by_cases hq : q ∈ rest.map (virtualHash c node)
      · simp [hq]
      · by_cases hqi : virtualHash c node i = q
        · simp [hqi]
        · simp [hq, hqi, Ne.symm hqi]

theorem addNode_spec (c : Consistence) (node : String) :
    (addNode c node).hash = c.hash ∧ (addNode c node).replicas = c.replicas ∧
      (addNode c node).ring = c.ring ++ positions c node ∧
      ∀ q, GoMap.get (addNode c node).hashMap q
        = if q ∈ positions c node then some node else GoMap.get c.hashMap q :=
  addNode_loop_spec node (List.range c.replicas.toNat) c

theorem sortInts_sorted (l : List Int) : (sortInts l).Sorted (· ≤ ·) :=
  List.sorted_insertionSort (· ≤ ·) l

theorem mem_sortInts {l : List Int} {x : Int} : x ∈ sortInts l ↔ x ∈ l :=
  List.mem_insertionSort (· ≤ ·)

theorem foldl_addNode_covered (nodes : List String) : ∀ (c : Consistence),
    (∀ q ∈ c.ring, (GoMap.get c.hashMap q).isSome = true) →
    ∀ q ∈ (nodes.foldl addNode c).ring,
      (GoMap.get (nodes.foldl addNode c).hashMap q).isSome = true := by
  induction nodes with
  | nil => intro c h; exact h
  | cons node rest ih =>
    intro c h
    simp only [List.foldl_cons]
    apply ih
    obtain ⟨_, _, h3, h4⟩ := addNode_spec c node
    intro q hq
    rw [h3] at hq
    rw [h4 q]
    by_cases hp : q ∈ positions c node
    · simp [hp]
    · rw [if_neg hp]
      rcases List.mem_append.1 hq with hq | hq
      · exact h q hq
      · exact absurd hq hp

/-- In every reachable ring the hash sequence is sorted and each of its
entries is a key of the hash-to-node map. -/
theorem Reach_ring {crc : Hash} {replicas : Int} {fn : Option Hash} {c : Consistence}
    (hr : Reach crc replicas fn c) :
    c.ring.Sorted (· ≤ ·) ∧ ∀ q ∈ c.ring, (GoMap.get c.hashMap q).isSome = true := by
  induction hr with
  | new => simp [New]
  | @add c nodes _ ih =>
    refine ⟨sortInts_sorted _, ?_⟩
    intro q hq
    have hq' : q ∈ (nodes.foldl addNode c).ring := mem_sortInts.1 hq
    exact foldl_addNode_covered nodes c ih.2 q hq'
  | get key _ ih =>
    rw [Get_state]
    exact ih

theorem Add_single_spec (c : Consistence) (node : String) :
    (Add c [node]).hash = c.hash ∧
      (∀ q, q ∈ (Add c [node]).ring ↔ q ∈ c.ring ∨ q ∈ positions c node) ∧
      (Add c [node]).ring.Sorted (· ≤ ·) ∧
      ∀ q, GoMap.get (Add c [node]).hashMap q
        = if q ∈ positions c node then some node else GoMap.get c.hashMap q := by
  obtain ⟨h1, _, h3, h4⟩ := addNode_spec c node
  refine ⟨h1, ?_, sortInts_sorted _, h4⟩
  intro q
  show q ∈ sortInts (addNode c node).ring ↔ _
  rw [mem_sortInts, h3, List.mem_append]

/-- C9: in every reachable ring the hash sequence is sorted ascending and, for every
key, `Get(key)` on an empty ring returns the empty string; when index `i` is
the first whose entry is `≥ hash(key)`, `Get(key)` returns the node the map
records for that entry; and when `hash(key)` exceeds every entry of a
non-empty ring, `Get(key)` returns the node recorded for the entry at index 0,
which is the smallest entry. -/
theorem C9_Get_returns_first_entry_at_or_after (crc : Hash) (replicas : Int)
    (fn : Option Hash) (c : Consistence) (hr : Reach crc replicas fn c) (key : String) :
    c.ring.Sorted (· ≤ ·) ∧
      (c.ring = [] → (Get c key).1 = "") ∧
      (∀ i, i < c.ring.length → ((c.hash key).toNat : Int) ≤ c.ring.getD i 0 →
        (∀ j, j < i → c.ring.getD j 0 < ((c.hash key).toNat : Int)) →
        GoMap.get c.hashMap (c.ring.getD i 0) = some (Get c key).1) ∧
      (c.ring ≠ [] → (∀ q ∈ c.ring, q < ((c.hash key).toNat : Int)) →
        GoMap.get c.hashMap (c.ring.getD 0 0) = some (Get c key).1 ∧
          ∀ q ∈ c.ring, c.ring.getD 0 0 ≤ q) := by
  obtain ⟨hs, hcov⟩ := Reach_ring hr
  have hrec : ∀ i, i < c.ring.length →
      (Get c key).1 = (GoMap.get c.hashMap (c.ring.getD i 0)).getD "" →
      GoMap.get c.hashMap (c.ring.getD i 0) = some (Get c key).1 := by
    intro i hi hget
    obtain ⟨node, hnode⟩ := Option.isSome_iff_exists.1 (hcov _ (getD_mem hi))
    rw [hget, hnode]
    rfl
  refine ⟨hs, fun h => Get_empty h key, ?_, ?_⟩
  · intro i hi hge hlt
    have hne : c.ring ≠ [] := by
      intro h
      rw [h] at hi
      exact absurd hi (by simp)
    obtain ⟨r, hr, hlo, hhi, hget⟩ := Get_index hs hne key
    have hri : r = i := by
      apply le_antisymm
      · by_contra hcon
        have := hlo i (by omega)
        omega
      · by_contra hcon
        have h1 := hhi r (le_refl _) (by omega)
        have h2 := hlt r (by omega)
        omega
    subst hri
    rw [Nat.mod_eq_of_lt hi] at hget
    exact hrec r hi hget
  · intro hne hall
    have hpos : 0 < c.ring.length := List.length_pos.2 hne
    obtain ⟨r, hr, hlo, hhi, hget⟩ := Get_index hs hne key
    have hrn : r = c.ring.length := by
      apply le_antisymm hr
      by_contra hcon
      have h1 := hhi r (le_refl _) (by omega)
      have h2 := hall _ (getD_mem (by omega : r < c.ring.length))
      omega
    rw [hrn, Nat.mod_self] at hget
    refine ⟨hrec 0 hpos hget, ?_⟩
    intro q hq
    obtain ⟨i, hi, rfl⟩ := List.getElem_of_mem hq
    have := sorted_getD_le hs (Nat.zero_le i) hi
    rwa [List.getD_eq_getElem c.ring 0 hi] at this

/-- C9 (witness): the ring of nodes `"a"` and `"b"` with two replicas each under
`exampleHash`, entries 10, 20, 30, 40; the key `"k"` hashes to 25 and is owned
by the node recorded for the entry 30 at index 2. -/
theorem C9_Get_returns_first_entry_at_or_after_witness :
    GoMap.get (Add (New exampleHash 2 (some exampleHash)) ["a", "b"]).hashMap
        ((Add (New exampleHash 2 (some exampleHash)) ["a", "b"]).ring.getD 2 0)
      = some (Get (Add (New exampleHash 2 (some exampleHash)) ["a", "b"]) "k").1 :=
  (C9_Get_returns_first_entry_at_or_after exampleHash 2 (some exampleHash) _
    (Reach.add ["a", "b"] Reach.new) "k").2.2.1 2 (by decide) (by decide) (by decide)

/-- C10: for every reachable ring, every node `n` and every key `k`: if `Get(k)` after
`Add(n)` differs from `Get(k)` before it, then `Get(k)` after `Add(n)` is `n`;
if `hash(k)` does not fall between any virtual position of `n` and that
position's ring predecessor, `Get(k)` is the same before and after `Add(n)`;
and `Get` leaves the ring unchanged, so a repeated `Get(k)` returns the same
node. -/
theorem C10_Add_moves_keys_only_to_new_node (crc : Hash) (replicas : Int)
    (fn : Option Hash) (c : Consistence) (hr : Reach crc replicas fn c) (n k : String) :
    ((Get (Add c [n]) k).1 ≠ (Get c k).1 → (Get (Add c [n]) k).1 = n) ∧
      ((∀ p ∈ positions c n, ¬ fallsBetween (Add c [n]).ring p ((c.hash k).toNat : Int)) →
        (Get (Add c [n]) k).1 = (Get c k).1) ∧
      ((Get c k).2 = c ∧ (Get (Get c k).2 k).1 = (Get c k).1) := by
  obtain ⟨hs, _⟩ := Reach_ring hr
  obtain ⟨a1, a2, a3, a4⟩ := Add_single_spec c n
  have hsub : ∀ q ∈ c.ring, q ∈ (Add c [n]).ring := fun q hq => (a2 q).2 (Or.inl hq)
  have key : (Get (Add c [n]) k).1 = (Get c k).1 ∨
      ((Get (Add c [n]) k).1 = n ∧
        ∃ p ∈ positions c n, fallsBetween (Add c [n]).ring p ((c.hash k).toNat : Int)) := by
    by_cases hne' : (Add c [n]).ring = []
    · left
      have hne : c.ring = [] := by
        cases hc : c.ring with
        | nil => rfl
        | cons q rest =>
          have := hsub q (by rw [hc]; simp)
          rw [hne'] at this
          exact absurd this (by simp)
      rw [Get_empty hne', Get_empty hne]
    · obtain ⟨v', hv', hget'⟩ := Get_successor a3 hne' k
      rw [a1] at hv'
      by_cases hp : v' ∈ positions c n
      · right
        rw [a4 v', if_pos hp] at hget'
        exact ⟨hget', v', hp, fallsBetween_of_isSuccessor hv'⟩
      · left
        rw [a4 v', if_neg hp] at hget'
        have hmem : v' ∈ c.ring := by
          rcases (a2 v').1 hv'.1 with h | h
          · exact h
          · exact absurd h hp
        have hne : c.ring ≠ [] := List.ne_nil_of_mem hmem
        obtain ⟨v, hv, hget⟩ := Get_successor hs hne k
        have := isSuccessor_unique hv (isSuccessor_of_subset hsub hv' hmem)
        rw [hget, hget', this]
  refine ⟨?_, ?_, Get_state c k, by rw [Get_state]⟩
  · intro hdiff
    rcases key with h | h
    · exact absurd h hdiff
    · exact h.1
  · intro hnone
    rcases key with h | ⟨_, p, hp, hfb⟩
    · exact h
    · exact absurd hfb (hnone p hp)

/-- C10 (witness): the ring of node `"a"` (entries 10, 30) to which `"b"` (entries
20, 40) is added; the key `"k"` hashes to 25, outside the arcs `(10, 20]` and
`(30, 40]` of the new node, and keeps its owner. -/
theorem C10_Add_moves_keys_only_to_new_node_witness :
    (Get (Add (Add (New exampleHash 2 (some exampleHash)) ["a"]) ["b"]) "k").1
      = (Get (Add (New exampleHash 2 (some exampleHash)) ["a"]) "k").1 :=
  (C10_Add_moves_keys_only_to_new_node exampleHash 2 (some exampleHash) _
    (Reach.add ["a"] Reach.new) "b" "k").2.1 (by decide)

end consistenthash

/-! ## The ring: registered nodes -/

namespace consistenthash

theorem positions_congr {c c' : Consistence} (h1 : c'.hash = c.hash)
    (h2 : c'.replicas = c.replicas) (node : String) : positions c' node = positions c node := by
  unfold positions
  rw [h2]
  exact List.map_congr_left (fun i _ => virtualHash_congr h1 node i)

theorem mem_positions {c : Consistence} {node : String} {q : Int} :
    q ∈ positions c node ↔ ∃ i : Nat, (i : Int) < c.replicas ∧ q = virtualHash c node i := by
  unfold positions
  rw [List.mem_map]
  constructor
  · rintro ⟨i, hi, rfl⟩
    exact ⟨i, Int.lt_toNat.1 (List.mem_range.1 hi), rfl⟩
  · rintro ⟨i, hi, rfl⟩
    exact ⟨i, List.mem_range.2 (Int.lt_toNat.2 hi), rfl⟩

theorem foldl_addNode_spec (nodes : List String) : ∀ (c : Consistence),
    (nodes.foldl addNode c).hash = c.hash ∧ (nodes.foldl addNode c).replicas = c.replicas ∧
      (nodes.foldl addNode c).ring = c.ring ++ nodes.flatMap (positions c) ∧
      ∀ q node, GoMap.get (nodes.foldl addNode c).hashMap q = some node →
        GoMap.get c.hashMap q = some node ∨ (node ∈ nodes ∧ q ∈ positions c node) := by
  induction nodes with
  | nil => intro c; simp
  | cons n rest ih =>
    intro c
    simp only [List.foldl_cons]
    obtain ⟨a1, a2, a3, a4⟩ := addNode_spec c n
    obtain ⟨h1, h2, h3, h4⟩ := ih (addNode c n)
    have hpos : ∀ node, positions (addNode c n) node = positions c node :=
      fun node => positions_congr a1 a2 node
    refine ⟨h1.trans a1, h2.trans a2, ?_, ?_⟩
    · rw [h3, a3, List.flatMap_cons, List.append_assoc]
      congr 2
      exact List.flatMap_congr (fun node _ => hpos node)
    · intro q node hq
      rcases h4 q node hq with h | ⟨hmem, hp⟩
      · rw [a4 q] at h
        by_cases hqp : q ∈ positions c n
        · rw [if_pos hqp] at h
          injection h with h
          subst h
          exact Or.inr ⟨List.mem_cons_self _ _, hqp⟩
        · rw [if_neg hqp] at h
          exact Or.inl h
      · rw [hpos node] at hp
        exact Or.inr ⟨List.mem_cons_of_mem _ hmem, hp⟩

theorem Reach_of_ReachNodes {crc : Hash} {replicas : Int} {fn : Option Hash}
    {ns : List String} {c : Consistence} (hr : ReachNodes crc replicas fn ns c) :
    Reach crc replicas fn c := by
  induction hr with
  | new => exact Reach.new
  | add nodes _ ih => exact Reach.add nodes ih
  | get key _ ih => exact Reach.get key ih

/-- The ring is a rearrangement of the virtual positions of the registered
nodes, and the map sends each of its keys to a registered node that has the
key among its positions. -/
theorem ReachNodes_inv {crc : Hash} {replicas : Int} {fn : Option Hash}
    {ns : List String} {c : Consistence} (hr : ReachNodes crc replicas fn ns c) :
    c.replicas = replicas ∧ c.ring.Perm (ns.flatMap (positions c)) ∧
      ∀ q node, GoMap.get c.hashMap q = some node → node ∈ ns ∧ q ∈ positions c node := by
  induction hr with
  | new =>
    refine ⟨rfl, ?_, ?_⟩
    · simp [New]
    · intro q node h
      simp [New, GoMap.get] at h
  | @add ns c nodes _ ih =>
    obtain ⟨i1, i2, i3⟩ := ih
    obtain ⟨h1, h2, h3, h4⟩ := foldl_addNode_spec nodes c
    have hpos : ∀ node, positions (Add c nodes) node = positions c node :=
      fun node => positions_congr h1 h2 node
    have hfm : ∀ l : List String, l.flatMap (positions (Add c nodes)) = l.flatMap (positions c) :=
      fun l => List.flatMap_congr (fun node _ => hpos node)
    refine ⟨h2.trans i1, ?_, ?_⟩
    · rw [hfm, List.flatMap_append]
      show (sortInts (nodes.foldl addNode c).ring).Perm _
      refine (List.perm_insertionSort _ _).trans ?_
      rw [h3]
      exact i2.append_right _
    · intro q node hq
      rw [hpos node]
      rcases h4 q node hq with h | ⟨hmem, hp⟩
      · obtain ⟨hn, hp⟩ := i3 q node h
        exact ⟨List.mem_append_left _ hn, hp⟩
      · exact ⟨List.mem_append_right _ hmem, hp⟩
  | get key _ ih =>
    rw [Get_state]
    exact ih

/-- C11 (as stated, with zero replicas per node): after `Add("node1")` on a ring
created with `replicas = 0` the ring is empty and `Get("k")` returns the
empty string, which is not the name of the registered node. -/
theorem C11_zero_replicas_Get_returns_empty :
    ReachNodes exampleHash 0 none ([] ++ ["node1"]) (Add (New exampleHash 0 none) ["node1"]) ∧
      (Get (Add (New exampleHash 0 none) ["node1"]) "k").1 = "" ∧
      (Get (Add (New exampleHash 0 none) ["node1"]) "k").1 ∉ ["node1"] :=
  ⟨ReachNodes.add ["node1"] ReachNodes.new, by decide, by decide⟩

/-- C11 (amended): on a ring created with at least one replica per node, whenever at
least one node has been registered through `Add`, `Get(key)` returns for every
key the name of one of the registered nodes; so it is never the empty string
unless a node of that name was registered. -/
theorem C11_Get_returns_registered_node (crc : Hash) (replicas : Int) (fn : Option Hash)
    (ns : List String) (c : Consistence) (hr : ReachNodes crc replicas fn ns c)
    (hrep : 1 ≤ replicas) (hns : ns ≠ []) (key : String) :
    (Get c key).1 ∈ ns ∧ ("" ∉ ns → (Get c key).1 ≠ "") := by
  obtain ⟨i1, i2, i3⟩ := ReachNodes_inv hr
  obtain ⟨hs, hcov⟩ := Reach_ring (Reach_of_ReachNodes hr)
  have hne : c.ring ≠ [] := by
    obtain ⟨n, rest, rfl⟩ := List.exists_cons_of_ne_nil hns
    have hp : virtualHash c n 0 ∈ positions c n :=
      mem_positions.2 ⟨0, by rw [i1]; exact_mod_cast hrep, rfl⟩
    have hm : virtualHash c n 0 ∈ (n :: rest).flatMap (positions c) :=
      List.mem_flatMap.2 ⟨n, List.mem_cons_self _ _, hp⟩
    exact List.ne_nil_of_mem (i2.mem_iff.2 hm)
  obtain ⟨v, hv, hget⟩ := Get_successor hs hne key
  obtain ⟨node, hnode⟩ := Option.isSome_iff_exists.1 (hcov v hv.1)
  have hres : (Get c key).1 = node := by
    rw [hget, hnode]
    rfl
  have hmem : (Get c key).1 ∈ ns := hres ▸ (i3 v node hnode).1
  exact ⟨hmem, fun h0 heq => h0 (heq ▸ hmem)⟩

/-- C11 (witness): the ring of `"a"` and `"b"` with two replicas each. -/
theorem C11_Get_returns_registered_node_witness :
    (Get (Add (New exampleHash 2 none) ["a", "b"]) "k").1 ∈ [] ++ ["a", "b"] :=
  (C11_Get_returns_registered_node exampleHash 2 none _ _
    (ReachNodes.add ["a", "b"] ReachNodes.new) (by decide) (by decide) "k").1

/-- C12 (as stated, a node added twice): with one replica per node, after `Add("a")`
twice the position 10 of `"a"` is a key of the hash-to-node map and occurs
twice in the sorted hash sequence. -/
theorem C12_hash_occurs_twice_in_ring :
    ReachNodes exampleHash 1 none (([] ++ ["a"]) ++ ["a"])
        (Add (Add (New exampleHash 1 none) ["a"]) ["a"]) ∧
      GoMap.get (Add (Add (New exampleHash 1 none) ["a"]) ["a"]).hashMap 10 = some "a" ∧
      (Add (Add (New exampleHash 1 none) ["a"]) ["a"]).ring.count 10 = 2 :=
  ⟨ReachNodes.add ["a"] (ReachNodes.add ["a"] ReachNodes.new), by decide, by decide⟩

/-- C12 (amended): in every ring state reachable from `New` by `Add` calls, every key of
the hash-to-node map appears at least once in the sorted hash sequence, and
exactly once when the virtual positions of the registered nodes (a node
counted once per registration) are pairwise distinct. -/
theorem C12_map_keys_occur_in_ring (crc : Hash) (replicas : Int) (fn : Option Hash)
    (ns : List String) (c : Consistence) (hr : ReachNodes crc replicas fn ns c) :
    (∀ q node, GoMap.get c.hashMap q = some node → 1 ≤ c.ring.count q) ∧
      ((ns.flatMap (positions c)).Nodup →
        ∀ q node, GoMap.get c.hashMap q = some node → c.ring.count q = 1) := by
  obtain ⟨_, i2, i3⟩ := ReachNodes_inv hr
  have hmem : ∀ q node, GoMap.get c.hashMap q = some node → q ∈ c.ring := by
    intro q node hq
    obtain ⟨hn, hp⟩ := i3 q node hq
    exact i2.mem_iff.2 (List.mem_flatMap.2 ⟨node, hn, hp⟩)
  refine ⟨fun q node hq => List.one_le_count_iff.2 (hmem q node hq), ?_⟩
  intro hnd q node hq
  exact List.count_eq_one_of_mem (i2.nodup_iff.2 hnd) (hmem q node hq)

/-- C12 (witness): the ring of `"a"` and `"b"` with two replicas each, whose four
positions 10, 30, 20, 40 are distinct; the map key 30 occurs once. -/
theorem C12_map_keys_occur_in_ring_witness :
    (Add (New exampleHash 2 none) ["a", "b"]).ring.count 30 = 1 :=
  (C12_map_keys_occur_in_ring exampleHash 2 none _ _
    (ReachNodes.add ["a", "b"] ReachNodes.new)).2 (by decide) 30 "a" (by decide)

/-- C13: in every ring state reachable from `New` by `Add` calls the hash sequence is
sorted ascending; it is a rearrangement of the values
`hash(node + decimal(i))` over the registered nodes and `0 ≤ i < replicas`, so
it contains exactly these values; and every entry is mapped by the
hash-to-node map to a registered node that has the entry among its positions. -/
theorem C13_ring_sorted_and_exact (crc : Hash) (replicas : Int) (fn : Option Hash)
    (ns : List String) (c : Consistence) (hr : ReachNodes crc replicas fn ns c) :
    c.ring.Sorted (· ≤ ·) ∧
      c.ring.Perm (ns.flatMap (positions c)) ∧
      (∀ q, q ∈ c.ring ↔ ∃ node ∈ ns, ∃ i : Nat, (i : Int) < replicas ∧
        q = ((c.hash (node ++ Itoa i)).toNat : Int)) ∧
      (∀ q ∈ c.ring, ∃ node ∈ ns, GoMap.get c.hashMap q = some node ∧
        q ∈ positions c node) := by
  obtain ⟨i1, i2, i3⟩ := ReachNodes_inv hr
  obtain ⟨hs, hcov⟩ := Reach_ring (Reach_of_ReachNodes hr)
  refine ⟨hs, i2, ?_, ?_⟩
  · intro q
    rw [i2.mem_iff, List.mem_flatMap]
    constructor
    · rintro ⟨node, hn, hp⟩
      obtain ⟨i, hi, hq⟩ := mem_positions.1 hp
      exact ⟨node, hn, i, i1 ▸ hi, hq⟩
    · rintro ⟨node, hn, i, hi, hq⟩
      exact ⟨node, hn, mem_positions.2 ⟨i, i1.symm ▸ hi, hq⟩⟩
  · intro q hq
    obtain ⟨node, hnode⟩ := Option.isSome_iff_exists.1 (hcov q hq)
    obtain ⟨hn, hp⟩ := i3 q node hnode
    exact ⟨node, hn, hnode, hp⟩

/-- C13 (witness): the ring of `"a"` and `"b"` with two replicas each is 10, 20, 30, 40. -/
theorem C13_ring_sorted_and_exact_witness :
    (Add (New exampleHash 2 none) ["a", "b"]).ring.Sorted (· ≤ ·) ∧
      (Add (New exampleHash 2 none) ["a", "b"]).ring = [10, 20, 30, 40] :=
  ⟨(C13_ring_sorted_and_exact exampleHash 2 none _ _
    (ReachNodes.add ["a", "b"] ReachNodes.new)).1, by decide⟩

end consistenthash

/-! ## The counter, the scenario and termination -/

namespace lru

/-- When the capacity is 0, or positive with the drift `nbytes - liveBytes`
within it, the eviction loop finishes within one test per live entry plus
one, and every one of its `RemoveOldest` calls removes an entry. -/
theorem evictLoop_calls : ∀ (n : Nat) (c : Cache), WF c → c.ll.length = n →
    (c.maxBytes = 0 ∨ (0 < c.maxBytes ∧ c.nbytes - liveBytes c ≤ c.maxBytes)) →
    ∃ c' k, evictLoop (n + 1) c = some c' ∧ evictCalls (n + 1) c = some k ∧
      c'.ll.length + k = n := by
  intro n
  induction n with
  | zero =>
    intro c _ hlen hH
    have hnil : c.ll = [] := List.length_eq_zero.1 hlen
    have hl : liveBytes c = 0 := by simp [liveBytes, hnil]
    have hcond : ¬ (c.maxBytes ≠ 0 ∧ c.maxBytes < c.nbytes) := by
      rintro ⟨h0, hlt⟩
      rcases hH with h | ⟨_, h⟩
      · exact h0 h
      · omega
    refine ⟨c, 0, ?_, ?_, by omega⟩
    · exact evictLoop_stop 0 hcond
    · show (if c.maxBytes ≠ 0 ∧ c.maxBytes < c.nbytes then _ else some 0) = some 0
      rw [if_neg hcond]
  | succ n ih =>
    intro c hwf hlen hH
    by_cases hcond : c.maxBytes ≠ 0 ∧ c.maxBytes < c.nbytes
    · have hH' : (RemoveOldest c).maxBytes = 0 ∨ (0 < (RemoveOldest c).maxBytes ∧
          (RemoveOldest c).nbytes - liveBytes (RemoveOldest c) ≤ (RemoveOldest c).maxBytes) := by
        rw [RemoveOldest_maxBytes, RemoveOldest_drift hwf]
        exact hH
      obtain ⟨c', k, h1, h2, h3⟩ := ih (RemoveOldest c) (WF_RemoveOldest hwf)
        (by rw [RemoveOldest_length hwf, hlen]; rfl) hH'
      refine ⟨c', k + 1, ?_, ?_, by omega⟩
      · rw [evictLoop_step _ hcond]
        exact h1
      · show (if c.maxBytes ≠ 0 ∧ c.maxBytes < c.nbytes then
            (evictCalls (n + 1) (RemoveOldest c)).map (fun n => n + 1) else some 0) = _
        rw [if_pos hcond, h2]
        rfl
    · refine ⟨c, 0, evictLoop_stop _ hcond, ?_, by omega⟩
      show (if c.maxBytes ≠ 0 ∧ c.maxBytes < c.nbytes then _ else some 0) = some 0
      rw [if_neg hcond]

/-- C4: for every store created with a capacity other than 0 and every state reached by
a sequence of `Add` calls, whenever a further `Add` call completes the tracked
counter `nbytes` is at most `maxBytes`; and the call does complete, at the
first test of the loop condition, when the counter after the insert or update
is within the capacity. -/
theorem C4_counter_within_capacity_after_Add (m : Int) (cb : Bool) (hm : m ≠ 0) (c : Cache)
    (hr : ReachAdd m cb c) (key : String) (value : Value) :
    (∀ fuel c', Add fuel c key value = some c' →
        c'.maxBytes = m ∧ c'.nbytes ≤ c'.maxBytes) ∧
      ((AddNoEvict c key value).nbytes ≤ m →
        Add 1 c key value = some (AddNoEvict c key value)) := by
  obtain ⟨h, hh⟩ := Reach_of_ReachAdd hr
  have hmax := Reach_maxBytes hh
  constructor
  · intro fuel c' ha
    unfold Add at ha
    have h1 := evictLoop_maxBytes _ _ _ ha
    rw [AddNoEvict_maxBytes, hmax] at h1
    have h2 := evictLoop_exit _ _ _ ha
    refine ⟨h1, ?_⟩
    by_contra hlt
    exact h2 ⟨by rw [h1]; exact hm, by omega⟩
  · intro hle
    unfold Add
    apply evictLoop_stop
    rw [AddNoEvict_maxBytes, hmax]
    rintro ⟨_, hlt⟩
    omega

/-- C4 (witness): capacity 10, the first `Add` on the new store: it completes and
leaves the counter at 2. -/
theorem C4_counter_within_capacity_after_Add_witness :
    (10 : Int) ≠ 0 ∧ ReachAdd 10 false (New 10 false) ∧
      Add 1 (New 10 false) "a" (bytes 1) = some (AddNoEvict (New 10 false) "a" (bytes 1)) ∧
      (AddNoEvict (New 10 false) "a" (bytes 1)).nbytes
        ≤ (AddNoEvict (New 10 false) "a" (bytes 1)).maxBytes :=
  ⟨by decide, ReachAdd.new,
    (C4_counter_within_capacity_after_Add 10 false (by decide) (New 10 false) ReachAdd.new
      "a" (bytes 1)).2 (by decide),
    ((C4_counter_within_capacity_after_Add 10 false (by decide) (New 10 false) ReachAdd.new
      "a" (bytes 1)).1 1 _ rfl).2⟩

/-- C5 (as stated, capacity for exactly two entries): with the keys `"A"`, `"B"`, `"C"`,
`"D"`, one-byte values (entries of 2 bytes) and capacity 4, the insertion of
`C` already evicts `A`; the read of `A` is a miss and promotes nothing; after
the insertion of `D` the live entries are `D` and `C`, and `A` is not among
them. -/
theorem C5_capacity_two_loses_A_before_the_read :
    ∃ c1 c2 c3 c4, Add 2 (New 4 true) "A" (bytes 1) = some c1 ∧
      Add 2 c1 "B" (bytes 1) = some c2 ∧ Add 2 c2 "C" (bytes 1) = some c3 ∧
      c3.evicted = [⟨"A", bytes 1⟩] ∧ Get c3 "A" = (none, c3) ∧
      Add 2 (Get c3 "A").2 "D" (bytes 1) = some c4 ∧
      c4.ll.map Element.Value = [⟨"D", bytes 1⟩, ⟨"C", bytes 1⟩] ∧
      (Get c4 "A").1 = none := by
  refine ⟨_, _, _, _, rfl, rfl, rfl, ?_, ?_, rfl, ?_, ?_⟩ <;> decide

/-- C5 (amended): for distinct keys `A, B, C, D` whose entries all have size `s` and a
capacity `m` that fits exactly three of them (`3s ≤ m < 4s`), the calls
`Add(A)`, `Add(B)`, `Add(C)`, `Get(A)`, `Add(D)` all complete; nothing is
evicted before `Add(D)`; `Get(A)` finds `A` and promotes it; the insertion of
`D` invokes the eviction callback exactly once, on `B`, the least recently
touched entry, and the live entries are then `D`, `A`, `C`, newest first. -/
theorem C5_lru_scenario_capacity_three (m s : Int) (kA kB kC kD : String)
    (vA vB vC vD : Value)
    (hAB : kA ≠ kB) (hAC : kA ≠ kC) (hAD : kA ≠ kD) (hBC : kB ≠ kC) (hBD : kB ≠ kD)
    (hCD : kC ≠ kD)
    (hA : entry.size ⟨kA, vA⟩ = s) (hB : entry.size ⟨kB, vB⟩ = s)
    (hC : entry.size ⟨kC, vC⟩ = s) (hD : entry.size ⟨kD, vD⟩ = s)
    (hfit : 3 * s ≤ m) (hnot : m < 4 * s) :
    ∃ c1 c2 c3 c4, Add 2 (New m true) kA vA = some c1 ∧ Add 2 c1 kB vB = some c2 ∧
      Add 2 c2 kC vC = some c3 ∧ (Get c3 kA).1 = some vA ∧
      (Get c3 kA).2.ll.map Element.Value = [⟨kA, vA⟩, ⟨kC, vC⟩, ⟨kB, vB⟩] ∧
      (Get c3 kA).2.evicted = [] ∧
      Add 2 (Get c3 kA).2 kD vD = some c4 ∧
      c4.ll.map Element.Value = [⟨kD, vD⟩, ⟨kA, vA⟩, ⟨kC, vC⟩] ∧
      c4.evicted = [⟨kB, vB⟩] := by
  unfold entry.size at hA hB hC hD
  simp only at hA hB hC hD
  have e1 : AddNoEvict (New m true) kA vA
      = ⟨m, s, [⟨1, ⟨kA, vA⟩⟩], [(kA, 1)], true, []⟩ := by
    simp [AddNoEvict, New, GoMap.get, GoMap.set, GoMap.delete, freshId, hA]
  have h1 : Add 2 (New m true) kA vA = some ⟨m, s, [⟨1, ⟨kA, vA⟩⟩], [(kA, 1)], true, []⟩ := by
    unfold Add
    rw [e1, evictLoop_stop]
    simp only
    omega
  have e2 : AddNoEvict ⟨m, s, [⟨1, ⟨kA, vA⟩⟩], [(kA, 1)], true, []⟩ kB vB
      = ⟨m, 2 * s, [⟨2, ⟨kB, vB⟩⟩, ⟨1, ⟨kA, vA⟩⟩], [(kB, 2), (kA, 1)], true, []⟩ := by
    simp [AddNoEvict, GoMap.get, GoMap.set, GoMap.delete, freshId, hAB]
    omega
  have h2 : Add 2 ⟨m, s, [⟨1, ⟨kA, vA⟩⟩], [(kA, 1)], true, []⟩ kB vB
      = some ⟨m, 2 * s, [⟨2, ⟨kB, vB⟩⟩, ⟨1, ⟨kA, vA⟩⟩], [(kB, 2), (kA, 1)], true, []⟩ := by
    unfold Add
    rw [e2, evictLoop_stop]
    simp only
    omega
  have e3 : AddNoEvict ⟨m, 2 * s, [⟨2, ⟨kB, vB⟩⟩, ⟨1, ⟨kA, vA⟩⟩], [(kB, 2), (kA, 1)], true, []⟩
      kC vC = ⟨m, 3 * s, [⟨3, ⟨kC, vC⟩⟩, ⟨2, ⟨kB, vB⟩⟩, ⟨1, ⟨kA, vA⟩⟩],
        [(kC, 3), (kB, 2), (kA, 1)], true, []⟩ := by
    simp [AddNoEvict, GoMap.get, GoMap.set, GoMap.delete, freshId, hAC, hBC]
    omega
  have h3 : Add 2 ⟨m, 2 * s, [⟨2, ⟨kB, vB⟩⟩, ⟨1, ⟨kA, vA⟩⟩], [(kB, 2), (kA, 1)], true, []⟩
      kC vC = some ⟨m, 3 * s, [⟨3, ⟨kC, vC⟩⟩, ⟨2, ⟨kB, vB⟩⟩, ⟨1, ⟨kA, vA⟩⟩],
        [(kC, 3), (kB, 2), (kA, 1)], true, []⟩ := by
    unfold Add
    rw [e3, evictLoop_stop]
    simp only
    omega
  have g3 : Get ⟨m, 3 * s, [⟨3, ⟨kC, vC⟩⟩, ⟨2, ⟨kB, vB⟩⟩, ⟨1, ⟨kA, vA⟩⟩],
        [(kC, 3), (kB, 2), (kA, 1)], true, []⟩ kA
      = (some vA, ⟨m, 3 * s, [⟨1, ⟨kA, vA⟩⟩, ⟨3, ⟨kC, vC⟩⟩, ⟨2, ⟨kB, vB⟩⟩],
        [(kC, 3), (kB, 2), (kA, 1)], true, []⟩) := by
    simp [Get, GoMap.get, MoveToFront, findElement, Remove, Ne.symm hAC, Ne.symm hAB]
  have e4 : AddNoEvict ⟨m, 3 * s, [⟨1, ⟨kA, vA⟩⟩, ⟨3, ⟨kC, vC⟩⟩, ⟨2, ⟨kB, vB⟩⟩],
        [(kC, 3), (kB, 2), (kA, 1)], true, []⟩ kD vD
      = ⟨m, 4 * s, [⟨4, ⟨kD, vD⟩⟩, ⟨1, ⟨kA, vA⟩⟩, ⟨3, ⟨kC, vC⟩⟩, ⟨2, ⟨kB, vB⟩⟩],
        [(kD, 4), (kC, 3), (kB, 2), (kA, 1)], true, []⟩ := by
    simp [AddNoEvict, GoMap.get, GoMap.set, GoMap.delete, freshId, hAD, hCD, hBD]
    omega
  have r4 : RemoveOldest ⟨m, 4 * s, [⟨4, ⟨kD, vD⟩⟩, ⟨1, ⟨kA, vA⟩⟩, ⟨3, ⟨kC, vC⟩⟩,
        ⟨2, ⟨kB, vB⟩⟩], [(kD, 4), (kC, 3), (kB, 2), (kA, 1)], true, []⟩
      = ⟨m, 3 * s, [⟨4, ⟨kD, vD⟩⟩, ⟨1, ⟨kA, vA⟩⟩, ⟨3, ⟨kC, vC⟩⟩],
        [(kD, 4), (kC, 3), (kA, 1)], true, [⟨kB, vB⟩]⟩ := by
    simp [RemoveOldest, Back, Remove, GoMap.delete, hBC, hBD, hAB, Ne.symm hBC, Ne.symm hBD]
    omega
  have h4 : Add 2 ⟨m, 3 * s, [⟨1, ⟨kA, vA⟩⟩, ⟨3, ⟨kC, vC⟩⟩, ⟨2, ⟨kB, vB⟩⟩],
        [(kC, 3), (kB, 2), (kA, 1)], true, []⟩ kD vD = some
        ⟨m, 3 * s, [⟨4, ⟨kD, vD⟩⟩, ⟨1, ⟨kA, vA⟩⟩, ⟨3, ⟨kC, vC⟩⟩],
          [(kD, 4), (kC, 3), (kA, 1)], true, [⟨kB, vB⟩]⟩ := by
    unfold Add
    rw [e4, evictLoop_step 1 ⟨by simp only; omega, by simp only; omega⟩, r4, evictLoop_stop]
    simp only
    omega
  have g3' := congrArg Prod.snd g3
  simp only at g3'
  rw [← g3'] at h4
  refine ⟨_, _, _, _, h1, h2, h3, ?_, ?_, ?_, h4, ?_, ?_⟩
  · rw [g3]
  · rw [g3]
    rfl
  · rw [g3]
  · rfl
  · rfl

/-- C5 (witness): the keys `"A"`, `"B"`, `"C"`, `"D"`, one-byte values (entries of 2
bytes) and capacity 6. -/
theorem C5_lru_scenario_capacity_three_witness :
    ∃ c1 c2 c3 c4, Add 2 (New 6 true) "A" (bytes 1) = some c1 ∧
      Add 2 c1 "B" (bytes 1) = some c2 ∧ Add 2 c2 "C" (bytes 1) = some c3 ∧
      (Get c3 "A").1 = some (bytes 1) ∧
      (Get c3 "A").2.ll.map Element.Value
        = [⟨"A", bytes 1⟩, ⟨"C", bytes 1⟩, ⟨"B", bytes 1⟩] ∧
      (Get c3 "A").2.evicted = [] ∧
      Add 2 (Get c3 "A").2 "D" (bytes 1) = some c4 ∧
      c4.ll.map Element.Value = [⟨"D", bytes 1⟩, ⟨"A", bytes 1⟩, ⟨"C", bytes 1⟩] ∧
      c4.evicted = [⟨"B", bytes 1⟩] :=
  C5_lru_scenario_capacity_three 6 2 "A" "B" "C" "D" (bytes 1) (bytes 1) (bytes 1) (bytes 1)
    (by decide) (by decide) (by decide) (by decide) (by decide) (by decide)
    (by decide) (by decide) (by decide) (by decide) (by decide) (by decide)

/-- C20 (the code at the failing input): capacity 10; after `Add("k", v)` with
`v.Len() = 1` and `Add("k", w)` with `w.Len() = -100` the counter reads 2 (the
update adds 0). `Add("big", 9 bytes)` raises it to 14 and enters the loop:
removing `"k"` gives 113, removing `"big"` gives 101, the store is empty, the
condition `10 < 101` still holds, and the call never completes. -/
theorem C20_Add_spins_on_emptied_store :
    Reach 10 false [.add "k" ⟨[], -100⟩, .add "k" (bytes 1)]
        (AddNoEvict (AddNoEvict (New 10 false) "k" (bytes 1)) "k" ⟨[], -100⟩) ∧
      (RemoveOldest (RemoveOldest (AddNoEvict
        (AddNoEvict (AddNoEvict (New 10 false) "k" (bytes 1)) "k" ⟨[], -100⟩)
          "big" (bytes 9)))).ll = [] ∧
      (RemoveOldest (RemoveOldest (AddNoEvict
        (AddNoEvict (AddNoEvict (New 10 false) "k" (bytes 1)) "k" ⟨[], -100⟩)
          "big" (bytes 9)))).nbytes = 101 ∧
      ¬ ∃ fuel c', Add fuel
        (AddNoEvict (AddNoEvict (New 10 false) "k" (bytes 1)) "k" ⟨[], -100⟩)
          "big" (bytes 9) = some c' := by
  refine ⟨Reach.add 1 "k" ⟨[], -100⟩ (Reach.add 1 "k" (bytes 1) Reach.new rfl) rfl,
    by decide, by decide, ?_⟩
  rintro ⟨fuel, c', h⟩
  have hd := @evictLoop_diverges (RemoveOldest (RemoveOldest (AddNoEvict
    (AddNoEvict (AddNoEvict (New 10 false) "k" (bytes 1)) "k" ⟨[], -100⟩) "big" (bytes 9))))
    (by decide) (by decide) (by decide)
  unfold Add at h
  rcases fuel with _ | _ | n
  · exact Option.noConfusion h
  · rw [evictLoop_step 0 (by decide)] at h
    exact Option.noConfusion h
  · rw [evictLoop_step (n + 1) (by decide), evictLoop_step n (by decide), hd n] at h
    exact Option.noConfusion h

end lru

/-! ## The cache group: the store behind the wrapper -/

namespace geecache

theorem lruGet_none {l : lru.Cache} (hwf : lru.WF l) {key : String}
    (h : (lru.Get l key).1 = none) : GoMap.get l.cache key = none := by
  cases hg : GoMap.get l.cache key with
  | none => rfl
  | some ele =>
    obtain ⟨e, _, _, _, heq⟩ := lru.Get_hit hwf hg
    rw [heq] at h
    exact Option.noConfusion h

theorem cache_get_miss {mc : cache} (hinv : storeInv mc) {key : String}
    (h : (mc.get key).1 = none) :
    (mc.get key).2 = mc ∧ ∀ l, mc.lru = some l → GoMap.get l.cache key = none := by
  cases hl : mc.lru with
  | none =>
    refine ⟨?_, fun l hl' => Option.noConfusion hl'⟩
    unfold cache.get
    rw [hl]
  | some l =>
    obtain ⟨⟨hist, hr⟩, _⟩ := hinv l hl
    have hwf := lru.WF_of_Reach hr
    have hres : (lru.Get l key).1 = none := by
      unfold cache.get at h
      rw [hl] at h
      exact Option.map_eq_none'.1 h
    have hnone := lruGet_none hwf hres
    refine ⟨?_, ?_⟩
    · unfold cache.get
      rw [hl]
      simp only
      rw [lru.Get_miss hnone, ← hl]
    · intro l' hl'
      injection hl' with hl'
      exact hl' ▸ hnone

theorem storeInv_get {mc : cache} (hinv : storeInv mc) (key : String) :
    storeInv (mc.get key).2 ∧ (mc.get key).2.cacheBytes = mc.cacheBytes := by
  cases hl : mc.lru with
  | none =>
    have : mc.get key = (none, mc) := by
      unfold cache.get
      rw [hl]
    rw [this]
    exact ⟨hinv, rfl⟩
  | some l =>
    obtain ⟨⟨hist, hr⟩, hnb⟩ := hinv l hl
    have hwf := lru.WF_of_Reach hr
    have : mc.get key = ((lru.Get l key).1.map ByteView.ofValue,
        { mc with lru := some (lru.Get l key).2 }) := by
      unfold cache.get
      rw [hl]
    rw [this]
    refine ⟨?_, rfl⟩
    intro l' hl'
    injection hl' with hl'
    subst hl'
    refine ⟨⟨_, lru.Reach.get key hr⟩, ?_⟩
    rw [(lru.Get_fields l key).2.1, lru.liveBytes_perm (lru.Get_ll_perm hwf key)]
    exact hnb

/-- The store an `add` of the wrapper works on (the constructed one, or a new
one): reachable, with an exact counter, and without the key when the lookup
of the key missed. -/
theorem store_start {mc : cache} (hinv : storeInv mc) {key : String}
    (habs : ∀ l, mc.lru = some l → GoMap.get l.cache key = none) :
    ∃ l0 hist, (match mc.lru with
        | some l => l
        | none => lru.New mc.cacheBytes false) = l0 ∧
      lru.Reach mc.cacheBytes false hist l0 ∧ l0.nbytes = lru.liveBytes l0 ∧
      GoMap.get l0.cache key = none := by
  cases hl : mc.lru with
  | none => exact ⟨_, [], rfl, lru.Reach.new, by simp [lru.New, lru.liveBytes], rfl⟩
  | some l =>
    obtain ⟨⟨hist, hr⟩, hnb⟩ := hinv l hl
    exact ⟨l, hist, rfl, hr, hnb, habs l hl⟩

theorem AddNoEvict_absent_drift {l0 : lru.Cache} {key : String}
    (hnone : GoMap.get l0.cache key = none) (value : lru.Value) :
    (lru.AddNoEvict l0 key value).nbytes - lru.liveBytes (lru.AddNoEvict l0 key value)
      = l0.nbytes - lru.liveBytes l0 := by
  rw [lru.AddNoEvict_absent hnone]
  unfold lru.liveBytes
  show l0.nbytes + ((key.utf8ByteSize : Int) + value.Len)
    - (((key.utf8ByteSize : Int) + value.Len) + (l0.ll.map (fun e => e.Value.size)).sum)
    = l0.nbytes - (l0.ll.map (fun e => e.Value.size)).sum
  omega

theorem storeInv_add {mc mc' : cache} (hinv : storeInv mc) {key : String} {value : ByteView}
    {fuel : Nat} (habs : ∀ l, mc.lru = some l → GoMap.get l.cache key = none)
    (ha : mc.add fuel key value = some mc') :
    storeInv mc' ∧ mc'.cacheBytes = mc.cacheBytes := by
  obtain ⟨l0, hist, hl0, hr, hnb, hnone⟩ := store_start hinv habs
  unfold cache.add at ha
  simp only at ha
  rw [hl0] at ha
  cases hadd : lru.Add fuel l0 key value.toValue with
  | none =>
    rw [hadd] at ha
    exact Option.noConfusion ha
  | some l1 =>
    rw [hadd] at ha
    simp only [Option.map_some'] at ha
    injection ha with ha
    subst ha
    refine ⟨?_, rfl⟩
    intro l' hl'
    injection hl' with hl'
    subst hl'
    refine ⟨⟨_, lru.Reach.add fuel key value.toValue hr hadd⟩, ?_⟩
    have hwf := lru.WF_of_Reach hr
    have hd := lru.evictLoop_drift _ _ _ (lru.WF_AddNoEvict hwf key value.toValue) hadd
    have hz := AddNoEvict_absent_drift hnone value.toValue
    omega

/-- After a missed lookup the wrapper's `add` returns whenever the capacity is
not negative: the counter of the store is exact, so the eviction loop stops
on the emptied store at the latest. -/
theorem cache_add_returns {mc : cache} (hinv : storeInv mc) (hcap : 0 ≤ mc.cacheBytes)
    {key : String} (habs : ∀ l, mc.lru = some l → GoMap.get l.cache key = none)
    (value : ByteView) : ∃ fuel mc', mc.add fuel key value = some mc' := by
  obtain ⟨l0, hist, hl0, hr, hnb, hnone⟩ := store_start hinv habs
  have hwf := lru.WF_of_Reach hr
  have hmax := lru.Reach_maxBytes hr
  have hz := AddNoEvict_absent_drift hnone value.toValue
  have hH : (lru.AddNoEvict l0 key value.toValue).maxBytes = 0 ∨
      (0 < (lru.AddNoEvict l0 key value.toValue).maxBytes ∧
        (lru.AddNoEvict l0 key value.toValue).nbytes
          - lru.liveBytes (lru.AddNoEvict l0 key value.toValue)
          ≤ (lru.AddNoEvict l0 key value.toValue).maxBytes) := by
    rw [lru.AddNoEvict_maxBytes, hmax]
    rcases eq_or_lt_of_le hcap with h0 | hpos
    · exact Or.inl h0.symm
    · exact Or.inr ⟨hpos, by omega⟩
  obtain ⟨c', _, h1, _, _⟩ := lru.evictLoop_calls _ (lru.AddNoEvict l0 key value.toValue)
    (lru.WF_AddNoEvict hwf key value.toValue) rfl hH
  refine ⟨(lru.AddNoEvict l0 key value.toValue).ll.length + 1, { mc with lru := some c' }, ?_⟩
  unfold cache.add
  simp only
  rw [hl0]
  unfold lru.Add
  rw [h1]
  rfl

/-- An entry that fits is added to an empty store within one test of the loop
condition and is found by the next lookup. -/
theorem cache_add_fits {mc : cache} (hinv : storeInv mc)
    (hempty : ∀ l, mc.lru = some l → l.ll = []) (key : String) (value : ByteView)
    (hfit : mc.cacheBytes = 0 ∨
      (key.utf8ByteSize : Int) + (value.b.length : Int) ≤ mc.cacheBytes) :
    ∃ mc', mc.add 1 key value = some mc' ∧ (mc'.get key).1 = some value := by
  have habs : ∀ l, mc.lru = some l → GoMap.get l.cache key = none := by
    intro l hl
    obtain ⟨⟨hist, hr⟩, _⟩ := hinv l hl
    rw [(lru.WF_of_Reach hr).get_none_iff, hempty l hl]
    simp
  obtain ⟨l0, hist, hl0, hr, hnb, hnone⟩ := store_start hinv habs
  have hwf := lru.WF_of_Reach hr
  have hmax := lru.Reach_maxBytes hr
  have hnil : l0.ll = [] := by
    cases hl : mc.lru with
    | none =>
      rw [hl] at hl0
      rw [← hl0]
      rfl
    | some l =>
      rw [hl] at hl0
      rw [← hl0]
      exact hempty l hl
  have hzero : l0.nbytes = 0 := by
    rw [hnb]
    simp [lru.liveBytes, hnil]
  have hadd : lru.Add 1 l0 key value.toValue = some (lru.AddNoEvict l0 key value.toValue) := by
    unfold lru.Add
    apply lru.evictLoop_stop
    rw [lru.AddNoEvict_maxBytes, hmax]
    rintro ⟨h0, hlt⟩
    rcases hfit with h | h
    · exact h0 h
    · rw [lru.AddNoEvict_absent hnone] at hlt
      have hlen : value.toValue.Len = (value.b.length : Int) := rfl
      simp only [hzero, hlen] at hlt
      omega
  refine ⟨{ mc with lru := some (lru.AddNoEvict l0 key value.toValue) }, ?_, ?_⟩
  · unfold cache.add
    simp only
    rw [hl0, hadd]
    rfl
  · have hr' := lru.Reach.add 1 key value.toValue hr hadd
    have hfound := lru.Get_found hr' key
    have hsome := hfound.1.2 (lru.AddNoEvict_key_mem hwf key value.toValue)
    obtain ⟨w, hw⟩ := Option.isSome_iff_exists.1 hsome
    have hval := hfound.2 w hw
    simp only [lru.lastAdd, if_true, Option.some.injEq] at hval
    unfold cache.get
    simp only
    rw [hw, ← hval]
    rfl

end geecache

/-! ## The cache group: the invariant -/

namespace geecache

theorem getLocally_fields {fuel : Nat} {g g' : Group} {key : String} {r : Result}
    (h : getLocally fuel g key = some (r, g')) :
    g'.loader = g.loader ∧ g'.peers = g.peers ∧
      (g'.mainCache = g.mainCache ∨
        ∃ value, g.mainCache.add fuel key value = some g'.mainCache) := by
  unfold getLocally at h
  cases hget : g.getter key with
  | error err =>
    rw [hget] at h
    simp only [Option.some.injEq, Prod.mk.injEq] at h
    obtain ⟨_, rfl⟩ := h
    exact ⟨rfl, rfl, Or.inl rfl⟩
  | ok bytes =>
    rw [hget] at h
    simp only [populateCache] at h
    cases hadd : g.mainCache.add fuel key ⟨cloneBytes bytes⟩ with
    | none =>
      rw [hadd] at h
      exact Option.noConfusion h
    | some mc =>
      rw [hadd] at h
      simp only [Option.map_some', Option.some.injEq, Prod.mk.injEq] at h
      obtain ⟨_, rfl⟩ := h
      exact ⟨rfl, rfl, Or.inr ⟨_, hadd⟩⟩

theorem loadFn_fields {fuel : Nat} {g g' : Group} {key : String} {r : Result}
    (h : loadFn fuel g key = some (r, g')) :
    g'.loader = g.loader ∧ g'.peers = g.peers ∧
      (g'.mainCache = g.mainCache ∨
        ∃ value, g.mainCache.add fuel key value = some g'.mainCache) := by
  unfold loadFn at h
  split at h
  · dsimp only at h
    split at h
    · split at h
      · simp only [Option.some.injEq, Prod.mk.injEq] at h
        obtain ⟨_, rfl⟩ := h
        unfold getFromPeer
        dsimp only
        split <;> exact ⟨rfl, rfl, Or.inl rfl⟩
      · have := getLocally_fields h
        unfold getFromPeer at this
        dsimp only at this
        revert this
        split <;> exact fun this => this
    · have := getLocally_fields h
      exact this
  · exact getLocally_fields h

theorem load_fields {fuel : Nat} {g g' : Group} {key : String} {r : Result}
    (hl : g.loader = []) (h : load fuel g key = some (r, g')) :
    g'.loader = [] ∧ g'.peers = g.peers ∧
      (g'.mainCache = g.mainCache ∨
        ∃ value, g.mainCache.add fuel key value = some g'.mainCache) := by
  unfold load Do at h
  rw [hl, if_neg (List.not_mem_nil key)] at h
  beta_reduce at h
  cases hfn : loadFn fuel { g with loader := [key], trace := Call.coalescer key :: g.trace } key with
  | none =>
    rw [hfn] at h
    exact Option.noConfusion h
  | some out =>
    obtain ⟨r1, g1⟩ := out
    obtain ⟨f1, f2, f3⟩ := loadFn_fields hfn
    simp only at f1 f2 f3
    rw [hfn] at h
    simp only at h
    have hstate : g' = { g1 with loader := g1.loader.erase key } := by
      obtain ⟨v, e⟩ := r1
      cases e with
      | none =>
        simp only [Option.some.injEq, Prod.mk.injEq] at h
        exact h.2.symm
      | some err =>
        simp only [Option.some.injEq, Prod.mk.injEq] at h
        exact h.2.symm
    subst hstate
    refine ⟨?_, f2, f3⟩
    simp [f1]

theorem Get_Inv {fuel : Nat} {g g' : Group} {key : String} {r : Result} (hinv : Inv g)
    (h : Get fuel g key = some (r, g')) : Inv g' ∧ g'.peers = g.peers := by
  unfold Get at h
  by_cases hk : key = ""
  · rw [if_pos hk] at h
    simp only [Option.some.injEq, Prod.mk.injEq] at h
    obtain ⟨_, rfl⟩ := h
    exact ⟨hinv, rfl⟩
  · rw [if_neg hk] at h
    obtain ⟨s1, s2⟩ := storeInv_get hinv.2 key
    cases hres : (g.mainCache.get key).1 with
    | some v =>
      rw [hres] at h
      simp only [Option.some.injEq, Prod.mk.injEq] at h
      obtain ⟨_, rfl⟩ := h
      exact ⟨⟨hinv.1, s1⟩, rfl⟩
    | none =>
      rw [hres] at h
      simp only at h
      obtain ⟨m1, m2⟩ := cache_get_miss hinv.2 hres
      rw [m1] at h
      obtain ⟨f1, f2, f3⟩ := load_fields hinv.1 h
      refine ⟨⟨f1, ?_⟩, f2⟩
      rcases f3 with heq | ⟨value, hadd⟩
      · rw [heq]
        exact hinv.2
      · exact (storeInv_add hinv.2 m2 hadd).1

theorem Inv_of_Reach {g : Group} (hr : Reach g) : Inv g := by
  induction hr with
  | @new groups groups' name cacheBytes getter g hnew =>
    unfold NewGroup at hnew
    simp only [Except.ok.injEq, Prod.mk.injEq] at hnew
    obtain ⟨rfl, _⟩ := hnew
    exact ⟨rfl, fun l hl => Option.noConfusion hl⟩
  | @registerPeers g g' peers _ hreg ih =>
    unfold RegisterPeers at hreg
    cases hp : g.peers with
    | some p =>
      rw [hp] at hreg
      exact Except.noConfusion hreg
    | none =>
      rw [hp] at hreg
      simp only [Except.ok.injEq] at hreg
      subst hreg
      exact ih
  | get fuel key _ hget ih => exact (Get_Inv ih hget).1

end geecache

/-! ## The cache group: Get -/

namespace geecache

theorem Get_miss_load {g : Group} (hinv : Inv g) {key : String} (hk : key ≠ "")
    (hmiss : (g.mainCache.get key).1 = none) (fuel : Nat) :
    Get fuel g key = load fuel g key := by
  obtain ⟨m1, _⟩ := cache_get_miss hinv.2 hmiss
  unfold Get
  rw [if_neg hk, hmiss]
  simp only
  rw [m1]

theorem loaderCalls_loader (key : String) (t : List Call) :
    loaderCalls (Call.loader key :: t) = loaderCalls t + 1 := by
  simp [loaderCalls]

theorem loaderCalls_pickPeer (key : String) (t : List Call) :
    loaderCalls (Call.pickPeer key :: t) = loaderCalls t := by
  simp [loaderCalls]

theorem loaderCalls_peerGet (name key : String) (t : List Call) :
    loaderCalls (Call.peerGet name key :: t) = loaderCalls t := by
  simp [loaderCalls]

theorem loaderCalls_coalescer (key : String) (t : List Call) :
    loaderCalls (Call.coalescer key :: t) = loaderCalls t := by
  simp [loaderCalls]

/-- A local miss with no remote value goes to the loader, once: a loader error
is returned as it is and leaves the store alone; loaded bytes are returned
and handed to the store. -/
theorem Get_local {g : Group} (hinv : Inv g) {key : String} (hk : key ≠ "")
    (hmiss : (g.mainCache.get key).1 = none) (hno : noRemote g key) (fuel : Nat) :
    (∀ e, g.getter key = .error e →
      ∃ g', Get fuel g key = some ((⟨[]⟩, some e), g') ∧ g'.mainCache = g.mainCache ∧
        loaderCalls g'.trace = loaderCalls g.trace + 1) ∧
    (∀ bytes mc, g.getter key = .ok bytes → g.mainCache.add fuel key ⟨bytes⟩ = some mc →
      ∃ g', Get fuel g key = some ((⟨bytes⟩, none), g') ∧ g'.mainCache = mc ∧
        loaderCalls g'.trace = loaderCalls g.trace + 1) := by
  rw [Get_miss_load hinv hk hmiss]
  unfold noRemote at hno
  cases hp : g.peers with
  | none =>
    constructor
    · intro e herr
      refine ⟨{ g with loader := [], trace := (Call.loader key :: Call.coalescer key :: g.trace) },
        ?_, rfl, ?_⟩
      · simp [load, Do, loadFn, getLocally, hinv.1, hp, herr]
      · simp [loaderCalls_loader, loaderCalls_coalescer]
    · intro bytes mc hok hadd
      refine ⟨{ g with
        mainCache := mc
        loader := []
        trace := (Call.loader key :: Call.coalescer key :: g.trace) }, ?_, rfl, ?_⟩
      · simp [load, Do, loadFn, getLocally, populateCache, cloneBytes, hinv.1, hp, hok, hadd]
      · simp [loaderCalls_loader, loaderCalls_coalescer]
  | some peers =>
    rw [hp] at hno
    simp only at hno
    cases hpick : peers.PickPeer key with
    | none =>
      constructor
      · intro e herr
        refine ⟨{ g with
          loader := []
          trace := (Call.loader key :: Call.pickPeer key :: Call.coalescer key :: g.trace) },
          ?_, rfl, ?_⟩
        · simp [load, Do, loadFn, getLocally, hinv.1, hp, hpick, herr]
        · simp [loaderCalls_loader, loaderCalls_coalescer, loaderCalls_pickPeer]
      · intro bytes mc hok hadd
        refine ⟨{ g with
          mainCache := mc
          loader := []
          trace := (Call.loader key :: Call.pickPeer key :: Call.coalescer key :: g.trace) },
          ?_, rfl, ?_⟩
        · simp [load, Do, loadFn, getLocally, populateCache, cloneBytes, hinv.1, hp, hpick,
            hok, hadd]
        · simp [loaderCalls_loader, loaderCalls_coalescer, loaderCalls_pickPeer]
    | some peer =>
      rw [hpick] at hno
      simp only at hno
      obtain ⟨err, herr'⟩ := Option.ne_none_iff_exists'.1 hno
      constructor
      · intro e herr
        refine ⟨{ g with
          loader := []
          trace := (Call.loader key :: Call.peerGet g.name key :: Call.pickPeer key ::
            Call.coalescer key :: g.trace) }, ?_, rfl, ?_⟩
        · simp [load, Do, loadFn, getLocally, getFromPeer, hinv.1, hp, hpick, herr, herr']
        · simp [loaderCalls_loader, loaderCalls_coalescer, loaderCalls_pickPeer,
            loaderCalls_peerGet]
      · intro bytes mc hok hadd
        refine ⟨{ g with
          mainCache := mc
          loader := []
          trace := (Call.loader key :: Call.peerGet g.name key :: Call.pickPeer key ::
            Call.coalescer key :: g.trace) }, ?_, rfl, ?_⟩
        · simp [load, Do, loadFn, getLocally, getFromPeer, populateCache, cloneBytes, hinv.1,
            hp, hpick, hok, hadd, herr']
        · simp [loaderCalls_loader, loaderCalls_coalescer, loaderCalls_pickPeer,
            loaderCalls_peerGet]

theorem storeEmpty_miss {g : Group} (hinv : Inv g) (hempty : storeEmpty g) (key : String) :
    (g.mainCache.get key).1 = none := by
  unfold storeEmpty at hempty
  unfold cache.get
  cases hl : g.mainCache.lru with
  | none => rfl
  | some l =>
    rw [hl] at hempty
    simp only at hempty ⊢
    obtain ⟨⟨hist, hr⟩, _⟩ := hinv.2 l hl
    have hwf := lru.WF_of_Reach hr
    have hnone : GoMap.get l.cache key = none := by
      rw [hwf.get_none_iff, hempty]
      simp
    rw [lru.Get_miss hnone]
    rfl

theorem Reach_exampleGroup (cacheBytes : Int) (n : Nat) : Reach (exampleGroup cacheBytes n) :=
  @Reach.new [] _ "g" cacheBytes (fun _ => .ok (List.replicate n 0)) _ rfl

theorem Reach_failingGroup : Reach failingGroup :=
  @Reach.new [] _ "g" 0 (fun _ => .error "no such key") _ rfl

theorem Reach_peerGroup (up : Bool) : Reach (peerGroup up) :=
  Reach.registerPeers (some (examplePicker up)) (Reach_exampleGroup 0 3) rfl

theorem Reach_negativeGroup : Reach negativeGroup :=
  Reach.registerPeers (some (examplePicker false)) (Reach_exampleGroup (-1) 3) rfl

/-- A local miss with no remote value and a loader that succeeds does not
return when the store's `add` does not. -/
theorem Get_local_stuck {g : Group} (hinv : Inv g) {key : String} (hk : key ≠ "")
    (hmiss : (g.mainCache.get key).1 = none) (hno : noRemote g key) (fuel : Nat)
    (bytes : List UInt8) (hok : g.getter key = .ok bytes)
    (hadd : g.mainCache.add fuel key ⟨bytes⟩ = none) : Get fuel g key = none := by
  rw [Get_miss_load hinv hk hmiss]
  unfold noRemote at hno
  cases hp : g.peers with
  | none => simp [load, Do, loadFn, getLocally, populateCache, cloneBytes, hinv.1, hp, hok, hadd]
  | some peers =>
    rw [hp] at hno
    simp only at hno
    cases hpick : peers.PickPeer key with
    | none =>
      simp [load, Do, loadFn, getLocally, populateCache, cloneBytes, hinv.1, hp, hpick, hok,
        hadd]
    | some peer =>
      rw [hpick] at hno
      simp only at hno
      obtain ⟨err, herr'⟩ := Option.ne_none_iff_exists'.1 hno
      simp [load, Do, loadFn, getLocally, getFromPeer, populateCache, cloneBytes, hinv.1, hp,
        hpick, hok, hadd, herr']

/-- On a new store of capacity -1 the wrapper's `add` never returns. -/
theorem negativeGroup_add_stuck (fuel : Nat) :
    negativeGroup.mainCache.add fuel "k" ⟨List.replicate 3 0⟩ = none := by
  have hd := @lru.evictLoop_diverges
    (lru.RemoveOldest (lru.AddNoEvict (lru.New (-1) false) "k"
      (ByteView.toValue ⟨List.replicate 3 0⟩)))
    (by decide) (by decide) (by decide)
  have hnone : lru.Add fuel (lru.New (-1) false) "k" (ByteView.toValue ⟨List.replicate 3 0⟩)
      = none := by
    unfold lru.Add
    cases fuel with
    | zero => rfl
    | succ n => rw [lru.evictLoop_step n (by decide), hd n]
  show (lru.Add fuel (lru.New (-1) false) "k" (ByteView.toValue ⟨List.replicate 3 0⟩)).map _
    = none
  rw [hnone]
  rfl

end geecache

/-! ## The cache group: the read path -/

namespace geecache

/-- C14 (as stated, two groups with an empty store): with capacity 1 and a loader that
returns 10 bytes for `"k"`, the first `Get("k")` returns the loaded value but
the store evicts it at once, so the second `Get("k")` invokes the loader
again; and on a group whose peer picker finds a peer that answers, the first
`Get("k")` returns the peer's bytes without invoking the loader or populating
the store. -/
theorem C14_not_cached_when_too_large_or_remote :
    (Reach (exampleGroup 1 10) ∧ storeEmpty (exampleGroup 1 10) ∧
      ∃ g1 g2, Get 2 (exampleGroup 1 10) "k" = some ((⟨List.replicate 10 0⟩, none), g1) ∧
        (g1.mainCache.get "k").1 = none ∧
        Get 2 g1 "k" = some ((⟨List.replicate 10 0⟩, none), g2) ∧
        loaderCalls g2.trace = 2) ∧
    (Reach (peerGroup true) ∧ storeEmpty (peerGroup true) ∧
      ∃ g1, Get 2 (peerGroup true) "k" = some ((⟨[1, 2]⟩, none), g1) ∧
        loaderCalls g1.trace = 0 ∧ (g1.mainCache.get "k").1 = none) := by
  refine ⟨⟨Reach_exampleGroup 1 10, trivial, _, _, rfl, ?_, rfl, ?_⟩,
    ⟨Reach_peerGroup true, trivial, _, rfl, ?_, ?_⟩⟩ <;> decide

/-- C14 (amended): for every reachable group with an empty store, every non-empty key
`k` and every loader that succeeds on `k`, provided no remote value is
obtained for `k` and the entry fits the store (capacity 0, or
`len(k) + len(value)` at most the capacity): the first `Get(k)` returns the
loaded bytes, invokes the loader exactly once and populates the store, and a
subsequent `Get(k)` returns the same value and makes no call at all. -/
theorem C14_miss_then_hit (g : Group) (hr : Reach g) (hempty : storeEmpty g) (key : String)
    (hk : key ≠ "") (bytes : List UInt8) (hok : g.getter key = .ok bytes)
    (hno : noRemote g key)
    (hfit : g.mainCache.cacheBytes = 0 ∨
      (key.utf8ByteSize : Int) + (bytes.length : Int) ≤ g.mainCache.cacheBytes) :
    ∃ g1 g2, Get 1 g key = some ((⟨bytes⟩, none), g1) ∧
      loaderCalls g1.trace = loaderCalls g.trace + 1 ∧
      (g1.mainCache.get key).1 = some ⟨bytes⟩ ∧
      ∀ fuel, Get fuel g1 key = some ((⟨bytes⟩, none), g2) ∧ g2.trace = g1.trace := by
  have hinv := Inv_of_Reach hr
  have hmiss := storeEmpty_miss hinv hempty key
  have hempty' : ∀ l, g.mainCache.lru = some l → l.ll = [] := by
    intro l hl
    unfold storeEmpty at hempty
    rw [hl] at hempty
    exact hempty
  obtain ⟨mc, hadd, hhit⟩ := cache_add_fits hinv.2 hempty' key ⟨bytes⟩ hfit
  obtain ⟨g1, hget, hmc, hcalls⟩ := (Get_local hinv hk hmiss hno 1).2 bytes mc hok hadd
  refine ⟨g1, { g1 with mainCache := (g1.mainCache.get key).2 }, hget, hcalls, ?_, ?_⟩
  · rw [hmc]
    exact hhit
  · intro fuel
    refine ⟨?_, rfl⟩
    unfold Get
    rw [if_neg hk, hmc, hhit]

/-- C14 (witness): the unbounded group whose loader returns three bytes, key `"k"`. -/
theorem C14_miss_then_hit_witness :
    ∃ g1 g2, Get 1 (exampleGroup 0 3) "k" = some ((⟨List.replicate 3 0⟩, none), g1) ∧
      loaderCalls g1.trace = loaderCalls (exampleGroup 0 3).trace + 1 ∧
      (g1.mainCache.get "k").1 = some ⟨List.replicate 3 0⟩ ∧
      ∀ fuel, Get fuel g1 "k" = some ((⟨List.replicate 3 0⟩, none), g2) ∧
        g2.trace = g1.trace :=
  C14_miss_then_hit (exampleGroup 0 3) (Reach_exampleGroup 0 3) trivial "k" (by decide)
    (List.replicate 3 0) rfl trivial (Or.inl rfl)

/-- C15: for every group state and any fuel, `Get("")` returns the zero value and the
error "key is required", and the group after the call is the group before
it: the store, the coalescer's map and the record of calls to the loader, the
peer picker and the coalescer are unchanged. -/
theorem C15_empty_key_rejected (fuel : Nat) (g : Group) :
    ∃ g', Get fuel g "" = some ((⟨[]⟩, some "key is required"), g') ∧ g' = g ∧
      g'.mainCache = g.mainCache ∧ g'.trace = g.trace ∧ g'.loader = g.loader := by
  refine ⟨g, ?_, rfl, rfl, rfl, rfl⟩
  unfold Get
  rw [if_pos rfl]

/-- C16 (as stated, on a group of capacity -1): the store lookup of `"k"` misses, the
picker finds a peer, the fetch fails and the loader succeeds, yet `Get("k")`
never returns, whatever the fuel: the store's `Add` spins on the emptied
store. -/
theorem C16_negative_capacity_Get_never_returns :
    Reach negativeGroup ∧ (negativeGroup.mainCache.get "k").1 = none ∧
      (examplePicker false).PickPeer "k" = some (examplePeer false) ∧
      ((examplePeer false).Get { Group := "g", Key := "k" } { Value := [] }).2
        = some "peer down" ∧
      negativeGroup.getter "k" = .ok (List.replicate 3 0) ∧
      ¬ ∃ fuel r g', Get fuel negativeGroup "k" = some (r, g') := by
  refine ⟨Reach_negativeGroup, rfl, rfl, rfl, rfl, ?_⟩
  rintro ⟨fuel, r, g', h⟩
  have hno : noRemote negativeGroup "k" := by
    simp [noRemote, negativeGroup, examplePicker, examplePeer]
  rw [Get_local_stuck (Inv_of_Reach Reach_negativeGroup) (by decide) rfl hno fuel
    (List.replicate 3 0) rfl (negativeGroup_add_stuck fuel)] at h
  exact Option.noConfusion h

/-- C16 (amended): on a reachable group, on a local miss for a non-empty key `k` for
which the registered picker finds a peer: when the fetch succeeds, `Get(k)`
returns the fetched bytes, does not invoke the loader and leaves the local
store unchanged; when the fetch fails, `Get(k)` goes on with the loader,
invoked once: it returns the loader's error, or, when the loader succeeds, the
loaded bytes as soon as the store's `add` returns, which it does whenever the
capacity is not negative. -/
theorem C16_remote_fetch_or_fall_through (g : Group) (hr : Reach g) (key : String)
    (hk : key ≠ "") (hmiss : (g.mainCache.get key).1 = none) (peers : PeerPicker)
    (peer : PeerGetter) (hp : g.peers = some peers) (hpick : peers.PickPeer key = some peer) :
    (∀ res, peer.Get { Group := g.name, Key := key } { Value := [] } = (res, none) →
      ∀ fuel, ∃ g', Get fuel g key = some ((⟨res.Value⟩, none), g') ∧
        g'.mainCache = g.mainCache ∧ loaderCalls g'.trace = loaderCalls g.trace) ∧
    (∀ res err, peer.Get { Group := g.name, Key := key } { Value := [] } = (res, some err) →
      (∀ e, g.getter key = .error e →
        ∀ fuel, ∃ g', Get fuel g key = some ((⟨[]⟩, some e), g') ∧
          loaderCalls g'.trace = loaderCalls g.trace + 1) ∧
      (∀ bytes, g.getter key = .ok bytes →
        (∀ fuel mc, g.mainCache.add fuel key ⟨bytes⟩ = some mc →
          ∃ g', Get fuel g key = some ((⟨bytes⟩, none), g') ∧ g'.mainCache = mc ∧
            loaderCalls g'.trace = loaderCalls g.trace + 1) ∧
        (0 ≤ g.mainCache.cacheBytes →
          ∃ fuel g', Get fuel g key = some ((⟨bytes⟩, none), g') ∧
            loaderCalls g'.trace = loaderCalls g.trace + 1))) := by
  have hinv := Inv_of_Reach hr
  constructor
  · intro res hres fuel
    rw [Get_miss_load hinv hk hmiss]
    refine ⟨{ g with
      loader := []
      trace := (Call.peerGet g.name key :: Call.pickPeer key :: Call.coalescer key :: g.trace) },
      ?_, rfl, ?_⟩
    · simp [load, Do, loadFn, getFromPeer, hinv.1, hp, hpick, hres]
    · simp [loaderCalls_peerGet, loaderCalls_coalescer, loaderCalls_pickPeer]
  · intro res err hfail
    have hno : noRemote g key := by
      unfold noRemote
      rw [hp]
      simp only
      rw [hpick]
      simp only
      rw [hfail]
      simp
    refine ⟨?_, ?_⟩
    · intro e herr fuel
      obtain ⟨g', h1, _, h3⟩ := (Get_local hinv hk hmiss hno fuel).1 e herr
      exact ⟨g', h1, h3⟩
    · intro bytes hok
      refine ⟨?_, ?_⟩
      · intro fuel mc hadd
        exact (Get_local hinv hk hmiss hno fuel).2 bytes mc hok hadd
      · intro hcap
        obtain ⟨fuel, mc, hadd⟩ := cache_add_returns hinv.2 hcap
          (cache_get_miss hinv.2 hmiss).2 ⟨bytes⟩
        obtain ⟨g', h1, _, h3⟩ := (Get_local hinv hk hmiss hno fuel).2 bytes mc hok hadd
        exact ⟨fuel, g', h1, h3⟩

/-- C16 (witness): the unbounded group with a picker whose peer answers with the bytes
1, 2, and the same group with a peer that fails, where the loader's three
bytes are returned. -/
theorem C16_remote_fetch_or_fall_through_witness :
    (∃ g', Get 0 (peerGroup true) "k" = some ((⟨[1, 2]⟩, none), g') ∧
      g'.mainCache = (peerGroup true).mainCache ∧
      loaderCalls g'.trace = loaderCalls (peerGroup true).trace) ∧
    (∃ fuel g', Get fuel (peerGroup false) "k" = some ((⟨List.replicate 3 0⟩, none), g') ∧
      loaderCalls g'.trace = loaderCalls (peerGroup false).trace + 1) :=
  ⟨(C16_remote_fetch_or_fall_through (peerGroup true) (Reach_peerGroup true) "k" (by decide)
      rfl (examplePicker true) (examplePeer true) rfl rfl).1 { Value := [1, 2] } rfl 0,
    (((C16_remote_fetch_or_fall_through (peerGroup false) (Reach_peerGroup false) "k"
      (by decide) rfl (examplePicker false) (examplePeer false) rfl rfl).2 { Value := [] }
      "peer down" rfl).2 (List.replicate 3 0) rfl).2 (by decide)⟩

/-- C17: on a reachable group, when `Get(k)` misses locally, no remote value is
obtained and the loader fails on `k` with error `e`, `Get(k)` returns the zero
value and exactly `e`, after one invocation of the loader, and leaves the
local store unchanged, so that `k` is still not cached. -/
theorem C17_loader_error_propagates (g : Group) (hr : Reach g) (key : String) (e : error)
    (hk : key ≠ "") (hmiss : (g.mainCache.get key).1 = none) (hno : noRemote g key)
    (herr : g.getter key = .error e) (fuel : Nat) :
    ∃ g', Get fuel g key = some ((⟨[]⟩, some e), g') ∧ g'.mainCache = g.mainCache ∧
      (g'.mainCache.get key).1 = none ∧
      loaderCalls g'.trace = loaderCalls g.trace + 1 := by
  have hinv := Inv_of_Reach hr
  obtain ⟨g', h1, h2, h3⟩ := (Get_local hinv hk hmiss hno fuel).1 e herr
  refine ⟨g', h1, h2, ?_, h3⟩
  rw [h2]
  exact hmiss

/-- C17 (witness): the group whose loader fails on every key, asked for `"k"`. -/
theorem C17_loader_error_propagates_witness :
    ∃ g', Get 0 failingGroup "k" = some ((⟨[]⟩, some "no such key"), g') ∧
      g'.mainCache = failingGroup.mainCache ∧ (g'.mainCache.get "k").1 = none ∧
      loaderCalls g'.trace = loaderCalls failingGroup.trace + 1 :=
  C17_loader_error_propagates failingGroup Reach_failingGroup "k" "no such key" (by decide)
    rfl trivial rfl 0

/-- C18 (as stated, with a nil first picker): after `RegisterPeers(nil)` the field
`peers` is still nil, so a second call returns normally and installs its
picker. -/
theorem C18_nil_picker_allows_second_call :
    ∃ g1 g2, RegisterPeers (exampleGroup 0 3) none = .ok g1 ∧
      RegisterPeers g1 (some (examplePicker true)) = .ok g2 ∧ g2.peers.isSome = true :=
  ⟨_, _, rfl, rfl, rfl⟩

/-- C18 (amended): for every group on which no picker is registered yet, every non-nil
picker `p1` and every picker `p2` (nil or not): `RegisterPeers(p1)` returns
and installs `p1`, and `RegisterPeers(p2)` after it panics, so that it yields
no new state and `p1` stays installed. -/
theorem C18_second_RegisterPeers_panics (g : Group) (p1 : PeerPicker)
    (p2 : Option PeerPicker) (h : g.peers = none) :
    ∃ g1, RegisterPeers g (some p1) = .ok g1 ∧ g1.peers = some p1 ∧
      RegisterPeers g1 p2 = .error "RegisterPeerPicker called more than once" := by
  refine ⟨{ g with peers := some p1 }, ?_, rfl, rfl⟩
  unfold RegisterPeers
  rw [h]

/-- C18 (witness): the example group, the example picker twice. -/
theorem C18_second_RegisterPeers_panics_witness :
    ∃ g1, RegisterPeers (exampleGroup 0 3) (some (examplePicker true)) = .ok g1 ∧
      g1.peers = some (examplePicker true) ∧
      RegisterPeers g1 (some (examplePicker false))
        = .error "RegisterPeerPicker called more than once" :=
  C18_second_RegisterPeers_panics (exampleGroup 0 3) (examplePicker true)
    (some (examplePicker false)) rfl

end geecache
